import Mathlib

/-! Weighted round-robin backend selection (`backend.go`).

A shallow embedding of the `RoundRobin` backend: the constructor
`NewRoundRobin` with its helper `prepareRoundRobinServers` and `gcd`, and the
selection loop of `GetServer`; and of the `SingleServer` backend.

Modelling conventions.

* Go `int` is `Int`.  On instances built by `NewRoundRobin` every intermediate
  value lies between `-maxWeight` and `max maxWeight (len servers)`, so 64-bit
  wrap-around never occurs and is not modelled.  Go's `%` truncates toward
  zero, which is `Int.tmod`.
* A map `map[*url.URL]int` is given by the list of its entries in the order in
  which `range` visits them.
* A `*url.URL` is `nil` or a pointer: `addr` is its identity, `text` what
  `String()` renders.  Calling `String()` on `nil` panics.
* A Go `error` is `Option String` (`none` is `nil`), a `*RoundRobin` is
  `Option RoundRobin`, a `nil` slice is `[]`.
* What a function gives is a `Run`: its results, a run-time panic, or, for a
  loop on fuel, the fuel used up.
* The mutex is not modelled: a call is the sequential body of `GetServer`.
* Loops without a syntactic bound run on fuel, and running out of fuel is a
  result of its own (`Run.timeout`, `none`).  The loop of `gcd` is given a
  bound that is enough on every input (`gcd_returns`).
-/

namespace Proxy

/-- A `*url.URL`, as the keys of the map are: `nil`, or a pointer of identity
`addr` to a URL that `String()` renders as `text`. -/
inductive URL where
  | nil : URL
  | ptr (addr : Nat) (text : String) : URL
deriving DecidableEq, Repr

/-- The method `String` of `*url.URL`; `none` is the panic of a call on the
`nil` pointer. -/
def URL.String : URL → Option String
  | URL.nil => none
  | URL.ptr _ text => some text

/-- What running a piece of code gives: its results, a run-time panic, or the
fuel of a loop used up. -/
inductive Run (α : Type) where
  | done : α → Run α
  | panic : Run α
  | timeout : Run α
deriving DecidableEq, Repr

/-- The `server` struct. -/
structure server where
  url : URL
  weight : Int
deriving DecidableEq, Repr

/-- The `RoundRobin` struct, without its mutex. -/
structure RoundRobin where
  servers : List server
  index : Int
  currentWeight : Int
  maxWeight : Int
  weightGcd : Int
deriving DecidableEq, Repr

/-- The loop `for b != 0 { a, b = b, a%b }` of `gcd`, for at most `fuel` tests
of its condition; `none` when the fuel is used up before `b = 0`. -/
def gcdLoop : Nat → Int → Int → Option Int
  | 0, _, _ => none
  | fuel + 1, a, b => if b ≠ 0 then gcdLoop fuel b (a.tmod b) else some a

/-- The function `gcd`.  The loop is given `|b| + 1` tests of its condition,
which `gcd_returns` shows is always enough, so the default is never used. -/
def gcd (a b : Int) : Int := (gcdLoop (b.natAbs + 1) a b).getD 0

/-- The body of `for url, weight := range serverMap` in
`prepareRoundRobinServers`, followed by the code after the loop, with the
loop's variables `servers`, `maxWeight`, `weightGcd` as accumulators.  On a
negative weight the error message is built from `url.String()`, which panics
when the key is `nil`. -/
def prepareLoop : List (URL × Int) → List server → Int → Int →
    Run (List server × Int × Int × Option String)
  | [], servers, maxWeight, weightGcd =>
    if maxWeight = 0 then
      Run.done ([], -1, -1, some "All servers have 0 weight")
    else
      Run.done (servers, maxWeight, weightGcd, none)
  | (url, weight) :: rest, servers, maxWeight, weightGcd =>
    if weight < 0 then
      match url.String with
      | none => Run.panic
      | some text =>
        Run.done ([], -1, -1, some ("Weight of server '" ++ text ++ "' is less than 0"))
    else
      prepareLoop rest (servers ++ [⟨url, weight⟩])
        (if weight > maxWeight then weight else maxWeight)
        (if weightGcd = -1 then weight else gcd weightGcd weight)

/-- The function `prepareRoundRobinServers`; what it returns is
`(servers, maxWeight, weightGcd, err)`. -/
def prepareRoundRobinServers (serverMap : List (URL × Int)) :
    Run (List server × Int × Int × Option String) :=
  if serverMap.length = 0 then
    Run.done ([], -1, -1, some "Must specify at least one server")
  else
    prepareLoop serverMap [] (-1) (-1)

/-- The function `NewRoundRobin`; what it returns is `(instance, err)`, and a
panic of `prepareRoundRobinServers` is a panic of the constructor. -/
def NewRoundRobin (serverMap : List (URL × Int)) : Run (Option RoundRobin × Option String) :=
  match prepareRoundRobinServers serverMap with
  | Run.done (servers, maxWeight, weightGcd, err) =>
    if err ≠ none then
      Run.done (none, err)
    else
      Run.done (some { servers := servers, index := -1, currentWeight := 0,
                       maxWeight := maxWeight, weightGcd := weightGcd }, none)
  | Run.panic => Run.panic
  | Run.timeout => Run.timeout

/-- The state update at the head of the loop body of `GetServer`: `index`
advances modulo `len(servers)`, and on `index == 0` the threshold
`currentWeight` drops by `weightGcd`, restarting from `maxWeight` once it is
`<= 0`. -/
def advance (r : RoundRobin) : RoundRobin :=
  let index := (r.index + 1).tmod r.servers.length
  if index = 0 then
    let currentWeight := r.currentWeight - r.weightGcd
    if currentWeight ≤ 0 then
      { r with index := index, currentWeight := r.maxWeight }
    else
      { r with index := index, currentWeight := currentWeight }
  else
    { r with index := index }

/-- The `for` loop of `GetServer`, for at most `fuel` iterations.  The result
is the URL returned together with the instance as the call leaves it.  A
division by `len(servers) = 0` and an index outside the slice panic. -/
def GetServerLoop : Nat → RoundRobin → Run (URL × RoundRobin)
  | 0, _ => Run.timeout
  | fuel + 1, r =>
    if r.servers.length = 0 then Run.panic
    else
      let r1 := advance r
      if r1.index < 0 then Run.panic
      else
        match r1.servers.get? r1.index.toNat with
        | none => Run.panic
        | some srv =>
          if srv.weight ≥ r1.currentWeight then Run.done (srv.url, r1)
          else GetServerLoop fuel r1

/-- The method `GetServer`: its loop, between taking and releasing the mutex.
The request `req` is not read and is left out. -/
def GetServer (fuel : Nat) (r : RoundRobin) : Run (URL × RoundRobin) :=
  GetServerLoop fuel r

/-- Successive calls of `GetServer`, `n` of them, each with `fuel` loop
iterations at most: the list of the URL each call returned paired with the
instance after that call. -/
def GetServerN (fuel : Nat) : Nat → RoundRobin → Run (List (URL × RoundRobin))
  | 0, _ => Run.done []
  | n + 1, r =>
    match GetServer fuel r with
    | Run.done (u, r1) =>
      match GetServerN fuel n r1 with
      | Run.done t => Run.done ((u, r1) :: t)
      | Run.panic => Run.panic
      | Run.timeout => Run.timeout
    | Run.panic => Run.panic
    | Run.timeout => Run.timeout

/-! ## The specification vocabulary -/

/-- The server entry made from one map entry. -/
def entry (e : URL × Int) : server := ⟨e.1, e.2⟩

/-- The input the constructor accepts: at least one entry, no negative weight,
some positive weight. -/
def ValidMap (m : List (URL × Int)) : Prop :=
  m ≠ [] ∧ (∀ e ∈ m, 0 ≤ e.2) ∧ ∃ e ∈ m, 0 < e.2

/-- `M` is the maximum of the weights `ws`. -/
def IsMaxOf (M : Int) (ws : List Int) : Prop :=
  M ∈ ws ∧ ∀ w ∈ ws, w ≤ M

/-- `g` is the greatest common divisor of the weights `ws`: the non-negative
number whose divisors are exactly the common divisors of `ws`. -/
def IsGcdOf (g : Int) (ws : List Int) : Prop :=
  0 ≤ g ∧ ∀ d : Int, d ∣ g ↔ ∀ w ∈ ws, d ∣ w

/-- The message of the negative-weight error for a key that `String()` renders
as `text`. -/
def negativeWeightMsg (text : String) : String :=
  "Weight of server '" ++ text ++ "' is less than 0"

/-- The constructor meets a negative weight, and the first one it meets in
iteration order has the key `nil`. -/
def FirstNegativeNil (m : List (URL × Int)) : Prop :=
  ∃ pre w post, m = pre ++ (URL.nil, w) :: post ∧ (∀ e ∈ pre, 0 ≤ e.2) ∧ w < 0

/-- What the loop of `prepareRoundRobinServers` has computed once the entries
`seen` are behind it. -/
def PrepInv (seen : List (URL × Int)) (servers : List server) (maxWeight weightGcd : Int) :
    Prop :=
  servers = seen.map entry ∧
    (seen = [] → maxWeight = -1 ∧ weightGcd = -1) ∧
    (seen ≠ [] → IsMaxOf maxWeight (seen.map Prod.snd) ∧ IsGcdOf weightGcd (seen.map Prod.snd))

/-- The instance `NewRoundRobin` builds from the entries `m` when it has found
the maximum `M` and the greatest common divisor `g`. -/
def fresh (m : List (URL × Int)) (M g : Int) : RoundRobin :=
  { servers := m.map entry, index := -1, currentWeight := 0, maxWeight := M, weightGcd := g }

/-! ## The schedule, cell by cell

One iteration of the loop of `GetServer` looks at one cell: a position of the
server list under a threshold.  Cells are numbered `0, 1, 2, ...` in the order
in which the loop visits them from the fresh instance. -/

/-- What `NewRoundRobin` leaves in the fields that `GetServer` only reads. -/
structure Built (r : RoundRobin) : Prop where
  nonempty : r.servers ≠ []
  gcd_pos : 0 < r.weightGcd
  max_pos : 0 < r.maxWeight
  weights : ∀ s ∈ r.servers, 0 ≤ s.weight ∧ s.weight ≤ r.maxWeight ∧ r.weightGcd ∣ s.weight
  max_mem : ∃ s ∈ r.servers, s.weight = r.maxWeight

/-- The number of thresholds `maxWeight, maxWeight - weightGcd, ..., weightGcd`. -/
def sweeps (r : RoundRobin) : Nat := (r.maxWeight / r.weightGcd).toNat

/-- The weight at position `j` of the server list (0 outside it). -/
def weightAt (r : RoundRobin) (j : Nat) : Int :=
  match r.servers.get? j with
  | some s => s.weight
  | none => 0

/-- The threshold under which cell `q` is visited. -/
def threshold (r : RoundRobin) (q : Nat) : Int :=
  r.maxWeight - (((q / r.servers.length) % sweeps r : Nat) : Int) * r.weightGcd

/-- The instance with `index` and `currentWeight` set to those of cell `q`. -/
def stateAt (r : RoundRobin) (q : Nat) : RoundRobin :=
  { r with index := ((q % r.servers.length : Nat) : Int), currentWeight := threshold r q }

/-- The instance from which the loop visits cell `q` next: the fresh one
(`index = -1`, `currentWeight = 0`) for cell 0, the state of the cell before
otherwise. -/
def before (r : RoundRobin) : Nat → RoundRobin
  | 0 => { r with index := -1, currentWeight := 0 }
  | q + 1 => stateAt r q

/-- Cell `q` ends a call: the weight at its position reaches its threshold. -/
def hit (r : RoundRobin) (q : Nat) : Bool :=
  decide (threshold r q ≤ weightAt r (q % r.servers.length))

/-- The URL at position `j` of the server list. -/
def urlAt (r : RoundRobin) (j : Nat) : URL :=
  match r.servers.get? j with
  | some s => s.url
  | none => URL.nil

/-- The cells in `[p, p + m)` that end a call, in order. -/
def hitsFrom (r : RoundRobin) (p m : Nat) : List Nat :=
  (List.range' p m).filter (hit r)

/-- What a call that ends at cell `q` returns and leaves. -/
def outcome (r : RoundRobin) (q : Nat) : URL × RoundRobin :=
  (urlAt r (q % r.servers.length), stateAt r q)

/-- The length of one cycle of calls: the sum of `weight / weightGcd` over the
server list. -/
def period (r : RoundRobin) : Nat :=
  (r.servers.map (fun s => (s.weight / r.weightGcd).toNat)).sum

/-- The instances that calls of `GetServer` lead to from `r0`: `r0` itself, and
what a call that returns leaves behind. -/
inductive Reachable (r0 : RoundRobin) : RoundRobin → Prop where
  | init : Reachable r0 r0
  | call (s : RoundRobin) (fuel : Nat) (u : URL) (s1 : RoundRobin) :
      Reachable r0 s → GetServer fuel s = Run.done (u, s1) → Reachable r0 s1

/-! ## Concrete inputs, those of `roundrobin_test.go` among them -/

/-- The first URL of the tests. -/
def url1 : URL := URL.ptr 1 "http://127.0.0.1:8080"

/-- The second URL of the tests. -/
def url2 : URL := URL.ptr 2 "http://127.0.0.1:9090"

/-- A third URL. -/
def url3 : URL := URL.ptr 3 "http://127.0.0.1:7070"

/-! ## The single-server backend (`backend/singleserver.go`) -/

/-- An `*http.Request`; no backend reads it. -/
structure Request where
  method : String
  target : String
deriving DecidableEq, Repr

/-- The `SingleServer` struct. -/
structure SingleServer where
  server : URL
deriving DecidableEq, Repr

/-- The method `GetServer` of `SingleServer`. -/
def SingleServer.GetServer (s : SingleServer) (_ : Request) : URL := s.server

/-! ## More specification vocabulary -/

/-- The invariant between calls: `0 <= currentWeight <= maxWeight`, and `index`
is the sentinel `-1` or a position of the server list. -/
def StateInv (s : RoundRobin) : Prop :=
  (0 ≤ s.currentWeight ∧ s.currentWeight ≤ s.maxWeight) ∧
    (s.index = -1 ∨ (0 ≤ s.index ∧ s.index < s.servers.length))

/-! ## The reference schedule, as the specification words it -/

/-- The thresholds `maxWeight, maxWeight - weightGcd, ..., weightGcd`, in this
order. -/
def thresholds (r : RoundRobin) : List Int :=
  (List.range (sweeps r)).map (fun s => r.maxWeight - (s : Int) * r.weightGcd)

/-- The block of the reference schedule: for each threshold in turn, the entries
of the server list whose weight reaches it, in the order of the list. -/
def referenceBlock (r : RoundRobin) : List server :=
  ((thresholds r).map (fun t => r.servers.filter (fun e => decide (t ≤ e.weight)))).flatten

/-- The reference schedule: the endless repetition of the block; `k` counts the
calls from 0. -/
def referenceSchedule (r : RoundRobin) (k : Nat) : Option server :=
  (referenceBlock r)[k % (referenceBlock r).length]?

/-! ## The loop of `GetServer`, iteration by iteration -/

/-- The loop of `GetServer` again, recording the instance after the state update
of each iteration it runs, the last being the one the call leaves.  An iteration
has taken the branch `if r.index == 0` exactly when the instance recorded for it
has `index = 0`. -/
def GetServerLoopTrace : Nat → RoundRobin → Run (List RoundRobin)
  | 0, _ => Run.timeout
  | fuel + 1, r =>
    if r.servers.length = 0 then Run.panic
    else
      let r1 := advance r
      if r1.index < 0 then Run.panic
      else
        match r1.servers.get? r1.index.toNat with
        | none => Run.panic
        | some srv =>
          if srv.weight ≥ r1.currentWeight then Run.done [r1]
          else
            match GetServerLoopTrace fuel r1 with
            | Run.done tr => Run.done (r1 :: tr)
            | Run.panic => Run.panic
            | Run.timeout => Run.timeout

/-! ## `gcd` -/

theorem natAbs_tmod (a b : Int) : (a.tmod b).natAbs = a.natAbs % b.natAbs := by
  cases a <;> cases b <;> simp [Int.tmod, Int.natAbs_neg] <;> rfl

/-- The loop of `gcd` always ends: with more than `|b|` tests of its condition it
returns, and what it returns is, up to sign, the greatest common divisor. -/
theorem gcdLoop_enough : ∀ (n : Nat) (a b : Int), b.natAbs < n →
    ∃ v, gcdLoop n a b = some v ∧ v.natAbs = Int.gcd a b ∧ (0 ≤ a → 0 ≤ b → 0 ≤ v) := by
  intro n
  induction n with
  | zero => intro a b h; omega
  | succ n ih =>
    intro a b h
    by_cases hb : b = 0
    · subst hb
      exact ⟨a, by simp [gcdLoop], by simp, fun ha _ => ha⟩
    · have hlt : (a.tmod b).natAbs < n := by
        rw [natAbs_tmod]
        have : a.natAbs % b.natAbs < b.natAbs :=
          Nat.mod_lt _ (Nat.pos_of_ne_zero (by simpa using hb))
        omega
      obtain ⟨v, hv, hg, hs⟩ := ih b (a.tmod b) hlt
      refine ⟨v, by simp [gcdLoop, hb, hv], ?_, ?_⟩
      · rw [hg]
        simp only [Int.gcd, natAbs_tmod]
        rw [Nat.gcd_comm a.natAbs, Nat.gcd_rec b.natAbs a.natAbs]
        exact Nat.gcd_comm _ _
      · intro ha hb0
        exact hs hb0 (Int.tmod_nonneg b ha)

/-- The loop of `gcd` returns within the bound `gcd` gives it, on every input. -/
theorem gcd_returns (a b : Int) : gcdLoop (b.natAbs + 1) a b = some (gcd a b) := by
  obtain ⟨v, hv, _⟩ := gcdLoop_enough (b.natAbs + 1) a b (Nat.lt_succ_self _)
  simp only [gcd, hv, Option.getD_some]

theorem gcd_eq (a b : Int) (ha : 0 ≤ a) (hb : 0 ≤ b) : gcd a b = (Int.gcd a b : Int) := by
  obtain ⟨v, hv, hg, hs⟩ := gcdLoop_enough (b.natAbs + 1) a b (Nat.lt_succ_self _)
  have h0 := hs ha hb
  simp only [gcd, hv, Option.getD_some]
  omega

/-! ## `prepareRoundRobinServers` and `NewRoundRobin` -/

theorem prepInv_step (seen : List (URL × Int)) (servers : List server) (maxWeight weightGcd : Int)
    (u : URL) (w : Int) (hw : 0 ≤ w) (hseen : ∀ e ∈ seen, 0 ≤ e.2)
    (h : PrepInv seen servers maxWeight weightGcd) :
    PrepInv (seen ++ [(u, w)]) (servers ++ [⟨u, w⟩])
      (if w > maxWeight then w else maxWeight)
      (if weightGcd = -1 then w else gcd weightGcd w) := by
  obtain ⟨hs, h0, h1⟩ := h
  refine ⟨by simp [hs, entry], fun hnil => by simp at hnil, fun _ => ?_⟩
  by_cases hnil : seen = []
  · obtain ⟨hm, hg⟩ := h0 hnil
    subst hnil
    have hlt : (-1 : Int) < w := by omega
    simp [hm, hg, IsMaxOf, IsGcdOf, hw, hlt]
  · obtain ⟨⟨hmem, hmax⟩, ⟨hg0, hgd⟩⟩ := h1 hnil
    have hgne : weightGcd ≠ -1 := by omega
    constructor
    · constructor
      · by_cases hc : w > maxWeight
        · simp [hc]
        · simp only [hc, if_false, List.map_append, List.mem_append]
          exact Or.inl hmem
      · intro x hx
        simp only [List.map_append, List.mem_append, List.map_cons, List.map_nil,
          List.mem_singleton] at hx
        rcases hx with hx | hx
        · have := hmax x hx
          split <;> omega
        · subst hx
          split <;> omega
    · rw [if_neg hgne, gcd_eq _ _ hg0 hw]
      refine ⟨Int.natCast_nonneg _, fun d => ?_⟩
      simp only [List.map_append, List.mem_append, List.map_cons, List.map_nil,
        List.mem_singleton]
      constructor
      · rintro hd x (hx | hx)
        · exact (hgd d).1 (hd.trans Int.gcd_dvd_left) x hx
        · exact hx ▸ hd.trans Int.gcd_dvd_right
      · intro h
        exact Int.dvd_gcd ((hgd d).2 fun x hx => h x (Or.inl hx)) (h w (Or.inr rfl))

/-- The loop over entries none of which is negative reaches the code after the
loop with the invariant on all of them. -/
theorem prepareLoop_nonneg : ∀ (rest seen : List (URL × Int)) (servers : List server)
    (maxWeight weightGcd : Int), (∀ e ∈ rest, 0 ≤ e.2) → (∀ e ∈ seen, 0 ≤ e.2) →
    PrepInv seen servers maxWeight weightGcd →
    ∃ servers1 maxWeight1 weightGcd1, PrepInv (seen ++ rest) servers1 maxWeight1 weightGcd1 ∧
      prepareLoop rest servers maxWeight weightGcd =
        prepareLoop [] servers1 maxWeight1 weightGcd1 := by
  intro rest
  induction rest with
  | nil =>
    intro seen servers maxWeight weightGcd _ _ h
    exact ⟨servers, maxWeight, weightGcd, by simpa using h, rfl⟩
  | cons e rest ih =>
    intro seen servers maxWeight weightGcd hrest hseen h
    obtain ⟨u, w⟩ := e
    have hw : 0 ≤ w := hrest (u, w) (List.mem_cons_self _ _)
    have hstep := prepInv_step seen servers maxWeight weightGcd u w hw hseen h
    have hseen1 : ∀ e ∈ seen ++ [(u, w)], 0 ≤ e.2 := by
      intro e he
      rcases List.mem_append.1 he with he | he
      · exact hseen e he
      · simp at he; subst he; exact hw
    obtain ⟨s1, m1, g1, hinv, heq⟩ :=
      ih (seen ++ [(u, w)]) _ _ _ (fun e he => hrest e (List.mem_cons_of_mem _ he)) hseen1 hstep
    refine ⟨s1, m1, g1, by simpa using hinv, ?_⟩
    rw [← heq]
    simp [prepareLoop, not_lt.2 hw]

/-- The loop stops at the first negative entry it meets, whatever it has
accumulated and whatever follows: with the negative-weight error of that entry,
or with a panic when its key is `nil`. -/
theorem prepareLoop_negative : ∀ (pre : List (URL × Int)) (u : URL) (w : Int)
    (post : List (URL × Int)) (servers : List server) (maxWeight weightGcd : Int),
    (∀ e ∈ pre, 0 ≤ e.2) → w < 0 →
    prepareLoop (pre ++ (u, w) :: post) servers maxWeight weightGcd =
      match u.String with
      | none => Run.panic
      | some text => Run.done ([], -1, -1, some (negativeWeightMsg text)) := by
  intro pre
  induction pre with
  | nil =>
    intro u w post servers maxWeight weightGcd _ hw
    simp only [List.nil_append, prepareLoop, hw, if_true, negativeWeightMsg]
  | cons e pre ih =>
    intro u w post servers maxWeight weightGcd hpre hw
    obtain ⟨u0, w0⟩ := e
    have hw0 : 0 ≤ w0 := hpre (u0, w0) (List.mem_cons_self _ _)
    simp only [List.cons_append, prepareLoop, not_lt.2 hw0, if_false]
    exact ih u w post _ _ _ (fun e he => hpre e (List.mem_cons_of_mem _ he)) hw

/-- A list with a negative weight splits at its first one. -/
theorem exists_first_negative : ∀ (m : List (URL × Int)), (∃ e ∈ m, e.2 < 0) →
    ∃ pre u w post, m = pre ++ (u, w) :: post ∧ (∀ e ∈ pre, 0 ≤ e.2) ∧ w < 0 := by
  intro m
  induction m with
  | nil => rintro ⟨e, he, _⟩; simp at he
  | cons e m ih =>
    intro h
    obtain ⟨u0, w0⟩ := e
    by_cases hw0 : w0 < 0
    · exact ⟨[], u0, w0, m, rfl, by simp, hw0⟩
    · have : ∃ e ∈ m, e.2 < 0 := by
        obtain ⟨e, he, hlt⟩ := h
        rcases List.mem_cons.1 he with he | he
        · subst he; exact absurd hlt hw0
        · exact ⟨e, he, hlt⟩
      obtain ⟨pre, u, w, post, hm, hpre, hw⟩ := ih this
      refine ⟨(u0, w0) :: pre, u, w, post, by simp [hm], ?_, hw⟩
      intro e he
      rcases List.mem_cons.1 he with he | he
      · subst he; exact not_lt.1 hw0
      · exact hpre e he
theorem negativeWeightMsg_ne_allZero (u : String) :
    negativeWeightMsg u ≠ "All servers have 0 weight" := by
  intro h
  have := congrArg String.data h
  simp [negativeWeightMsg, String.data_append] at this

theorem negativeWeightMsg_ne_empty (u : String) :
    negativeWeightMsg u ≠ "Must specify at least one server" := by
  intro h
  have := congrArg String.data h
  simp [negativeWeightMsg, String.data_append] at this

theorem isMaxOf_pos_iff (M : Int) (ws : List Int) (h : IsMaxOf M ws) (hnn : ∀ w ∈ ws, 0 ≤ w) :
    M = 0 ↔ ∀ w ∈ ws, w = 0 := by
  obtain ⟨hmem, hmax⟩ := h
  constructor
  · intro hM w hw
    have := hmax w hw
    have := hnn w hw
    omega
  · intro h0
    exact h0 M hmem

theorem isGcdOf_pos (g : Int) (ws : List Int) (h : IsGcdOf g ws) (w : Int) (hw : w ∈ ws)
    (hpos : 0 < w) : 0 < g := by
  obtain ⟨h0, hd⟩ := h
  rcases lt_or_eq_of_le h0 with hlt | heq
  · exact hlt
  · have : (0 : Int) ∣ w := (hd 0).1 (heq ▸ dvd_refl _) w hw
    have := zero_dvd_iff.1 this
    omega

/-- Every outcome of `NewRoundRobin`: the empty-map error, the negative-weight
error of the first negative entry, the all-zero error, the fresh instance, or a
panic when the first negative entry has the key `nil`. -/
theorem NewRoundRobin_cases (m : List (URL × Int)) :
    (m = [] ∧ NewRoundRobin m = Run.done (none, some "Must specify at least one server")) ∨
    (∃ pre u w post text, m = pre ++ (u, w) :: post ∧ (∀ e ∈ pre, 0 ≤ e.2) ∧ w < 0 ∧
      u.String = some text ∧
      NewRoundRobin m = Run.done (none, some (negativeWeightMsg text))) ∨
    (m ≠ [] ∧ (∀ e ∈ m, e.2 = 0) ∧
      NewRoundRobin m = Run.done (none, some "All servers have 0 weight")) ∨
    (ValidMap m ∧ ∃ M g, IsMaxOf M (m.map Prod.snd) ∧ IsGcdOf g (m.map Prod.snd) ∧
      0 < M ∧ 0 < g ∧ NewRoundRobin m = Run.done (some (fresh m M g), none)) ∨
    (FirstNegativeNil m ∧ NewRoundRobin m = Run.panic) := by
  by_cases hnil : m = []
  · subst hnil
    exact Or.inl ⟨rfl, rfl⟩
  have hlen : m.length ≠ 0 := fun h => hnil (List.length_eq_zero.1 h)
  by_cases hneg : ∃ e ∈ m, e.2 < 0
  · obtain ⟨pre, u, w, post, hm, hpre, hw⟩ := exists_first_negative m hneg
    have hloop := prepareLoop_negative pre u w post [] (-1) (-1) hpre hw
    cases hu : u.String with
    | none =>
      have hunil : u = URL.nil := by
        cases u with
        | nil => rfl
        | ptr a t => cases hu
      subst hunil
      refine Or.inr (Or.inr (Or.inr (Or.inr ⟨⟨pre, w, post, hm, hpre, hw⟩, ?_⟩)))
      rw [hu] at hloop
      simp only [NewRoundRobin, prepareRoundRobinServers, if_neg hlen]
      rw [hm, hloop]
    | some text =>
      refine Or.inr (Or.inl ⟨pre, u, w, post, text, hm, hpre, hw, hu, ?_⟩)
      rw [hu] at hloop
      simp only [NewRoundRobin, prepareRoundRobinServers, if_neg hlen]
      rw [hm, hloop]
      simp
  · have hnn : ∀ e ∈ m, 0 ≤ e.2 := by
      intro e he
      by_contra hc
      exact hneg ⟨e, he, not_le.1 hc⟩
    have hinv0 : PrepInv [] [] (-1) (-1) :=
      ⟨rfl, fun _ => ⟨rfl, rfl⟩, fun h => absurd rfl h⟩
    obtain ⟨s1, M, g, ⟨hs, _, hmg⟩, heq⟩ :=
      prepareLoop_nonneg m [] [] (-1) (-1) hnn (by simp) hinv0
    simp only [List.nil_append] at hs hmg
    obtain ⟨hmax, hgcd⟩ := hmg hnil
    have hnnw : ∀ w ∈ m.map Prod.snd, 0 ≤ w := by
      intro w hw
      obtain ⟨e, he, rfl⟩ := List.mem_map.1 hw
      exact hnn e he
    have hzero := isMaxOf_pos_iff M _ hmax hnnw
    by_cases hM : M = 0
    · refine Or.inr (Or.inr (Or.inl ⟨hnil, ?_, ?_⟩))
      · intro e he
        exact hzero.1 hM e.2 (List.mem_map_of_mem _ he)
      · simp [NewRoundRobin, prepareRoundRobinServers, hlen, heq, prepareLoop, hM]
    · have hMpos : 0 < M := by
        have := hnnw M hmax.1
        omega
      have hg : 0 < g := isGcdOf_pos g _ hgcd M hmax.1 hMpos
      obtain ⟨e, he, heM⟩ := List.mem_map.1 hmax.1
      refine Or.inr (Or.inr (Or.inr (Or.inl
        ⟨⟨hnil, hnn, e, he, by omega⟩, M, g, hmax, hgcd, hMpos, hg, ?_⟩)))
      simp [NewRoundRobin, prepareRoundRobinServers, hlen, heq, prepareLoop, hM, fresh, hs]
/-! ## The loop of `GetServer` walks the cells -/

theorem succ_mod_cases (x R : Nat) (hR : 0 < R) :
    (x % R + 1 = R ∧ (x + 1) % R = 0) ∨ (x % R + 1 < R ∧ (x + 1) % R = x % R + 1) := by
  have hlt := Nat.mod_lt x hR
  have h : (x + 1) % R = (x % R + 1) % R := (Nat.mod_add_mod x R 1).symm
  by_cases hc : x % R + 1 = R
  · left
    exact ⟨hc, by rw [h, hc, Nat.mod_self]⟩
  · right
    have : x % R + 1 < R := by omega
    exact ⟨this, by rw [h, Nat.mod_eq_of_lt this]⟩

theorem Built.length_pos {r : RoundRobin} (h : Built r) : 0 < r.servers.length :=
  List.length_pos.2 h.nonempty

theorem Built.gcd_dvd_max {r : RoundRobin} (h : Built r) : r.weightGcd ∣ r.maxWeight := by
  obtain ⟨s, hs, hM⟩ := h.max_mem
  exact hM ▸ (h.weights s hs).2.2

theorem Built.sweeps_mul {r : RoundRobin} (h : Built r) :
    ((sweeps r : Nat) : Int) * r.weightGcd = r.maxWeight := by
  have hnn : 0 ≤ r.maxWeight / r.weightGcd :=
    Int.ediv_nonneg (le_of_lt h.max_pos) (le_of_lt h.gcd_pos)
  rw [sweeps, Int.toNat_of_nonneg hnn]
  exact Int.ediv_mul_cancel h.gcd_dvd_max

theorem Built.sweeps_pos {r : RoundRobin} (h : Built r) : 0 < sweeps r := by
  have h1 := h.sweeps_mul
  have h2 := h.max_pos
  rcases Nat.eq_zero_or_pos (sweeps r) with h0 | h0
  · rw [h0] at h1; simp at h1; omega
  · exact h0

/-- One iteration's state update takes the instance before cell `p` to the state
of cell `p`. -/
theorem advance_before {r : RoundRobin} (h : Built r) (p : Nat) :
    advance (before r p) = stateAt r p := by
  have hN := h.length_pos
  have hR := h.sweeps_pos
  have hRg := h.sweeps_mul
  have hg := h.gcd_pos
  have hM := h.max_pos
  cases p with
  | zero =>
    simp [advance, before, stateAt, threshold, Nat.div_eq_of_lt hN, hg.le, Nat.zero_mod]
  | succ q =>
    have hidx : ((((q % r.servers.length : Nat) : Int) + 1).tmod (r.servers.length : Int))
        = (((q + 1) % r.servers.length : Nat) : Int) := by
      rw [Int.tmod_eq_emod (by positivity) (by positivity)]
      have : (((q % r.servers.length : Nat) : Int) + 1) = ((q % r.servers.length + 1 : Nat) : Int) := by
        push_cast; rfl
      rw [this, ← Int.natCast_mod, Nat.mod_add_mod]
    have hdiv := Nat.succ_div q r.servers.length
    by_cases hz : (q + 1) % r.servers.length = 0
    · have hdvd : r.servers.length ∣ q + 1 := Nat.dvd_of_mod_eq_zero hz
      rw [if_pos hdvd] at hdiv
      have hthr : threshold r (q + 1) =
          if threshold r q - r.weightGcd ≤ 0 then r.maxWeight
          else threshold r q - r.weightGcd := by
        simp only [threshold, hdiv]
        rcases succ_mod_cases (q / r.servers.length) (sweeps r) hR with ⟨h1, h2⟩ | ⟨h1, h2⟩
        · rw [h2]
          have : (((q / r.servers.length % sweeps r : Nat) : Int) + 1) * r.weightGcd
              = r.maxWeight := by
            rw [← hRg]; congr 1; exact_mod_cast h1
          rw [if_pos (by linarith)]
          simp
        · rw [h2]
          have hlt : (((q / r.servers.length % sweeps r + 1 : Nat) : Int)) * r.weightGcd
              < r.maxWeight := by
            rw [← hRg]
            exact mul_lt_mul_of_pos_right (by exact_mod_cast h1) hg
          push_cast at hlt ⊢
          rw [if_neg (by linarith)]
          ring
      simp only [advance, before, stateAt, hidx, hz]
      simp only [Nat.cast_zero, if_true, hthr]
      split <;> rfl
    · have hndvd : ¬ r.servers.length ∣ q + 1 := fun hd => hz (Nat.mod_eq_zero_of_dvd hd)
      rw [if_neg hndvd] at hdiv
      have hne : ((((q + 1) % r.servers.length : Nat)) : Int) ≠ 0 := by exact_mod_cast hz
      simp only [advance, before, stateAt, hidx, if_neg hne, threshold, hdiv, Nat.add_zero]
theorem before_servers (r : RoundRobin) (p : Nat) : (before r p).servers = r.servers := by
  cases p <;> rfl

theorem get?_mod {r : RoundRobin} (h : Built r) (p : Nat) :
    ∃ s, r.servers.get? (p % r.servers.length) = some s ∧ s ∈ r.servers := by
  have hlt : p % r.servers.length < r.servers.length := Nat.mod_lt _ h.length_pos
  refine ⟨r.servers.get ⟨_, hlt⟩, List.get?_eq_get hlt, List.get_mem _ _ _⟩

/-- One iteration of the loop from the instance before cell `p`: the call ends
there when the cell is a hit, and goes on to the next cell otherwise. -/
theorem GetServerLoop_before {r : RoundRobin} (h : Built r) (f p : Nat) :
    GetServerLoop (f + 1) (before r p) =
      if hit r p then Run.done (outcome r p) else GetServerLoop f (before r (p + 1)) := by
  have hN := h.length_pos
  obtain ⟨s, hs, _⟩ := get?_mod h p
  have hadv := advance_before h p
  rw [GetServerLoop, before_servers, if_neg (by omega), hadv]
  have hidx : ¬ ((stateAt r p).index < 0) := by
    simp only [stateAt]; omega
  simp only [hidx, if_false]
  have hget : (stateAt r p).servers.get? (stateAt r p).index.toNat = some s := by
    simpa [stateAt] using hs
  rw [hget]
  simp only [hit, weightAt, hs, outcome, urlAt, ge_iff_le]
  by_cases hc : threshold r p ≤ s.weight
  · simp [hc, stateAt]
  · simp [hc, stateAt, before]

theorem mul_add_cell (N Q j : Nat) (hj : j < N) :
    (Q * N + j) % N = j ∧ (Q * N + j) / N = Q := by
  have hN : 0 < N := by omega
  constructor
  · rw [Nat.mul_comm, Nat.mul_add_mod, Nat.mod_eq_of_lt hj]
  · rw [Nat.mul_comm, Nat.mul_add_div hN, Nat.div_eq_of_lt hj, Nat.add_zero]

/-- The cell at position `j` of sweep `Q`. -/
theorem hit_cell (r : RoundRobin) (Q j : Nat) (hj : j < r.servers.length) :
    hit r (Q * r.servers.length + j) =
      decide (r.maxWeight - ((Q % sweeps r : Nat) : Int) * r.weightGcd ≤ weightAt r j) := by
  obtain ⟨h1, h2⟩ := mul_add_cell r.servers.length Q j hj
  simp only [hit, threshold, h1, h2]

theorem Built.weightAt_bounds {r : RoundRobin} (h : Built r) (j : Nat) :
    0 ≤ weightAt r j ∧ weightAt r j ≤ r.maxWeight ∧ r.weightGcd ∣ weightAt r j := by
  unfold weightAt
  cases hs : r.servers.get? j with
  | none => exact ⟨le_refl _, le_of_lt h.max_pos, dvd_zero _⟩
  | some s => exact h.weights s (List.get?_mem hs)

theorem Built.exists_max {r : RoundRobin} (h : Built r) :
    ∃ j, j < r.servers.length ∧ weightAt r j = r.maxWeight := by
  obtain ⟨s, hs, hM⟩ := h.max_mem
  obtain ⟨i, hget⟩ := List.mem_iff_get.1 hs
  refine ⟨i.1, i.2, ?_⟩
  have : r.servers.get? i.1 = some s := by rw [List.get?_eq_get i.2]; exact congrArg some hget
  simp only [weightAt, this, hM]

theorem Built.threshold_bounds {r : RoundRobin} (h : Built r) (q : Nat) :
    r.weightGcd ≤ threshold r q ∧ threshold r q ≤ r.maxWeight ∧
      r.weightGcd ∣ threshold r q := by
  have hR := h.sweeps_pos
  have hRg := h.sweeps_mul
  have hg := h.gcd_pos
  have hlt := Nat.mod_lt (q / r.servers.length) hR
  set s := q / r.servers.length % sweeps r with hsdef
  have h1 : ((s : Int) + 1) * r.weightGcd ≤ (sweeps r : Int) * r.weightGcd :=
    mul_le_mul_of_nonneg_right (by exact_mod_cast hlt) hg.le
  have h2 : 0 ≤ (s : Int) * r.weightGcd := mul_nonneg (by positivity) hg.le
  refine ⟨?_, ?_, ?_⟩
  · show r.weightGcd ≤ r.maxWeight - (s : Int) * r.weightGcd
    linarith
  · show r.maxWeight - (s : Int) * r.weightGcd ≤ r.maxWeight
    linarith
  · show r.weightGcd ∣ r.maxWeight - (s : Int) * r.weightGcd
    exact dvd_sub h.gcd_dvd_max (dvd_mul_left _ _)

/-- The first call visits at most `len(servers)` cells. -/
theorem gap_first {r : RoundRobin} (h : Built r) : ∃ d, d < r.servers.length ∧ hit r d = true := by
  obtain ⟨j, hj, hw⟩ := h.exists_max
  refine ⟨j, hj, ?_⟩
  have := hit_cell r 0 j hj
  simp only [Nat.zero_mul, Nat.zero_add, Nat.zero_mod, Nat.cast_zero, zero_mul, sub_zero] at this
  rw [this, hw]
  simp

/-- After a hit the next one is at most `len(servers)` cells away. -/
theorem gap_next {r : RoundRobin} (h : Built r) (q : Nat) (hq : hit r q = true) :
    ∃ d, d < r.servers.length ∧ hit r (q + 1 + d) = true := by
  have hN := h.length_pos
  have hR := h.sweeps_pos
  have hRg := h.sweeps_mul
  have hg := h.gcd_pos
  set N := r.servers.length with hNdef
  have hi : q % N < N := Nat.mod_lt _ hN
  have hdecomp : q = (q / N) * N + q % N := by
    rw [Nat.mul_comm]; exact (Nat.div_add_mod q N).symm
  have hq1 : hit r ((q / N) * N + q % N) = true := by rw [← hdecomp]; exact hq
  rw [hit_cell r (q / N) (q % N) hi, decide_eq_true_eq] at hq1
  rcases succ_mod_cases (q / N) (sweeps r) hR with ⟨h1, h2⟩ | ⟨h1, h2⟩
  · -- the last sweep of a cycle: the threshold is `weightGcd`, the next one `maxWeight`
    obtain ⟨j, hj, hw⟩ := h.exists_max
    have hthr : r.maxWeight - ((q / N % sweeps r : Nat) : Int) * r.weightGcd = r.weightGcd := by
      have : ((q / N % sweeps r : Nat) : Int) + 1 = (sweeps r : Int) := by exact_mod_cast h1
      have h3 : (((q / N % sweeps r : Nat) : Int) + 1) * r.weightGcd = r.maxWeight := by
        rw [this]; exact hRg
      linarith
    have hgM : r.weightGcd ≤ r.maxWeight := by
      have := (h.weightAt_bounds (q % N)).2.1
      linarith
    by_cases hji : q % N < j
    · refine ⟨j - q % N - 1, by omega, ?_⟩
      have : q + 1 + (j - q % N - 1) = (q / N) * N + j := by omega
      rw [this, hit_cell r (q / N) j hj, decide_eq_true_eq, hthr, hw]
      exact hgM
    · refine ⟨N - (q % N - j) - 1, by omega, ?_⟩
      have : q + 1 + (N - (q % N - j) - 1) = (q / N + 1) * N + j := by
        rw [Nat.add_mul]; omega
      rw [this, hit_cell r (q / N + 1) j hj, decide_eq_true_eq, h2, hw]
      simp
  · refine ⟨N - 1, by omega, ?_⟩
    have : q + 1 + (N - 1) = (q / N + 1) * N + q % N := by
      rw [Nat.add_mul]; omega
    rw [this, hit_cell r (q / N + 1) (q % N) hi, decide_eq_true_eq, h2]
    have : (0 : Int) ≤ r.weightGcd := hg.le
    rw [Nat.cast_add, Nat.cast_one]
    nlinarith
/-! ## Calls end exactly at the hits -/

theorem hitsFrom_zero (r : RoundRobin) (p : Nat) : hitsFrom r p 0 = [] := rfl

theorem hitsFrom_succ (r : RoundRobin) (p m : Nat) :
    hitsFrom r p (m + 1) =
      if hit r p then p :: hitsFrom r (p + 1) m else hitsFrom r (p + 1) m := by
  simp only [hitsFrom, List.range'_succ, List.filter_cons]

theorem hitsFrom_add (r : RoundRobin) (p m n : Nat) :
    hitsFrom r p (m + n) = hitsFrom r p m ++ hitsFrom r (p + m) n := by
  induction m generalizing p with
  | zero => simp [hitsFrom_zero]
  | succ m ih =>
    have : m + 1 + n = (m + n) + 1 := by omega
    rw [this, hitsFrom_succ, hitsFrom_succ, ih (p + 1)]
    have : p + 1 + m = p + (m + 1) := by omega
    rw [this]
    split <;> simp

theorem mem_hitsFrom {r : RoundRobin} {p m q : Nat} (h : q ∈ hitsFrom r p m) :
    p ≤ q ∧ q < p + m ∧ hit r q = true := by
  simp only [hitsFrom, List.mem_filter, List.mem_range'_1] at h
  exact ⟨h.1.1, h.1.2, h.2⟩

theorem hitsFrom_eq_nil {r : RoundRobin} {p m : Nat}
    (h : ∀ d, d < m → hit r (p + d) = false) : hitsFrom r p m = [] := by
  simp only [hitsFrom, List.filter_eq_nil_iff, List.mem_range'_1]
  intro q hq
  have := h (q - p) (by omega)
  rw [show p + (q - p) = q by omega] at this
  simp [this]

/-- While the cells `[p, p + m)` are walked, the call in progress ends at the
first hit `q`, and the calls after it end at the hits that follow. -/
theorem calls_walk {r : RoundRobin} (h : Built r) (f : Nat) (hf : r.servers.length ≤ f) :
    ∀ (m p f1 : Nat), (∃ d, d < f1 ∧ hit r (p + d) = true) →
      ∀ (q : Nat) (rest : List Nat), hitsFrom r p m = q :: rest →
        GetServerLoop f1 (before r p) = Run.done (outcome r q) ∧
        GetServerN f rest.length (before r (q + 1)) = Run.done (rest.map (outcome r)) := by
  intro m
  induction m with
  | zero =>
    intro p f1 _ q rest hq
    simp [hitsFrom_zero] at hq
  | succ m ih =>
    intro p f1 hgap q rest hq
    obtain ⟨d, hd, hhit⟩ := hgap
    obtain ⟨f0, rfl⟩ : ∃ f0, f1 = f0 + 1 := ⟨f1 - 1, by omega⟩
    rw [hitsFrom_succ] at hq
    by_cases hp : hit r p = true
    · rw [if_pos hp] at hq
      obtain ⟨rfl, hrest⟩ := List.cons.inj hq
      refine ⟨by rw [GetServerLoop_before h, if_pos hp], ?_⟩
      cases hr : rest with
      | nil => rfl
      | cons q1 rest1 =>
        obtain ⟨d1, hd1, hhit1⟩ := gap_next h p hp
        obtain ⟨hcall, hrestcalls⟩ :=
          ih (p + 1) f ⟨d1, by omega, hhit1⟩ q1 rest1 (by rw [hrest, hr])
        simp only [List.length_cons, GetServerN, GetServer, hcall, outcome, List.map_cons]
        have : before r (q1 + 1) = stateAt r q1 := rfl
        rw [this] at hrestcalls
        rw [hrestcalls]
    · rw [if_neg hp] at hq
      have hd0 : d ≠ 0 := by
        rintro rfl
        exact hp hhit
      obtain ⟨d1, rfl⟩ : ∃ d1, d = d1 + 1 := ⟨d - 1, by omega⟩
      have hhit1 : hit r (p + 1 + d1) = true := by
        rw [show p + 1 + d1 = p + (d1 + 1) by omega]; exact hhit
      obtain ⟨hcall, hrestcalls⟩ := ih (p + 1) f0 ⟨d1, by omega, hhit1⟩ q rest hq
      exact ⟨by rw [GetServerLoop_before h, if_neg hp]; exact hcall, hrestcalls⟩

/-- From the instance before cell `p`, with a hit among the next `f` cells, as
many calls as there are hits in `[p, p + m)` end at exactly these hits. -/
theorem calls_from {r : RoundRobin} (h : Built r) (f : Nat) (hf : r.servers.length ≤ f)
    (p m : Nat) (hgap : ∃ d, d < f ∧ hit r (p + d) = true) :
    GetServerN f (hitsFrom r p m).length (before r p) =
      Run.done ((hitsFrom r p m).map (outcome r)) := by
  cases hl : hitsFrom r p m with
  | nil => rfl
  | cons q rest =>
    obtain ⟨hcall, hrestcalls⟩ := calls_walk h f hf m p f hgap q rest hl
    simp only [List.length_cons, GetServerN, GetServer, hcall, outcome, List.map_cons]
    have : before r (q + 1) = stateAt r q := rfl
    rw [this] at hrestcalls
    rw [hrestcalls]

/-- The position of the instance after `n` calls: a boundary `b` with exactly
`n` hits below it, and either `b = 0` or cell `b - 1` a hit. -/
theorem exists_boundary {r : RoundRobin} (h : Built r) :
    ∀ n : Nat, ∃ b, (hitsFrom r 0 b).length = n ∧
      (∃ d, d < r.servers.length ∧ hit r (b + d) = true) := by
  intro n
  induction n with
  | zero => exact ⟨0, rfl, by simpa using gap_first h⟩
  | succ n ih =>
    obtain ⟨b, hb, hgap⟩ := ih
    have hex : ∃ d, hit r (b + d) = true := by
      obtain ⟨d, _, hd⟩ := hgap
      exact ⟨d, hd⟩
    have hfound := Nat.find_spec hex
    have hmin : ∀ d, d < Nat.find hex → hit r (b + d) = false := by
      intro d hd
      have := Nat.find_min hex hd
      simpa using this
    refine ⟨b + (Nat.find hex + 1), ?_, ?_⟩
    · rw [hitsFrom_add, List.length_append, hb, Nat.zero_add, hitsFrom_add,
        hitsFrom_eq_nil hmin, hitsFrom_succ, if_pos hfound, hitsFrom_zero]
      simp
    · have := gap_next h (b + Nat.find hex) hfound
      simpa [Nat.add_assoc] using this
/-! ## Single calls and reachable instances -/

/-- A call from the instance before cell `p` whose first hit is `d` cells on
takes exactly `d + 1` iterations and ends there. -/
theorem first_hit {r : RoundRobin} (h : Built r) :
    ∀ (d p : Nat), (∀ e, e < d → hit r (p + e) = false) → hit r (p + d) = true →
      ∀ fuel, GetServerLoop fuel (before r p) =
        if fuel ≤ d then Run.timeout else Run.done (outcome r (p + d)) := by
  intro d
  induction d with
  | zero =>
    intro p _ hd fuel
    cases fuel with
    | zero => rfl
    | succ f =>
      rw [Nat.add_zero] at hd
      rw [GetServerLoop_before h, if_pos hd, if_neg (by omega), Nat.add_zero]
  | succ d ih =>
    intro p hmin hd fuel
    cases fuel with
    | zero => rfl
    | succ f =>
      have hp : hit r p = false := hmin 0 (by omega)
      rw [GetServerLoop_before h, hp]
      simp only [Bool.false_eq_true, if_false]
      have hmin1 : ∀ e, e < d → hit r (p + 1 + e) = false := by
        intro e he
        rw [show p + 1 + e = p + (e + 1) by omega]
        exact hmin (e + 1) (by omega)
      have hd1 : hit r (p + 1 + d) = true := by
        rw [show p + 1 + d = p + (d + 1) by omega]; exact hd
      rw [ih (p + 1) hmin1 hd1 f, show p + 1 + d = p + (d + 1) by omega]
      by_cases hc : f ≤ d
      · rw [if_pos hc, if_pos (by omega)]
      · rw [if_neg hc, if_neg (by omega)]

/-- A call from the instance before cell `p`, when a hit lies among the next
`n` cells: it ends at a hit `q` after at most `n` iterations, and never in a
panic. -/
theorem call_before {r : RoundRobin} (h : Built r) (p n : Nat)
    (hgap : ∃ d, d < n ∧ hit r (p + d) = true) :
    ∃ q d, q = p + d ∧ d < n ∧ hit r q = true ∧ (∀ e, e < d → hit r (p + e) = false) ∧
      ∀ fuel, GetServerLoop fuel (before r p) =
        if fuel ≤ d then Run.timeout else Run.done (outcome r q) := by
  have hex : ∃ d, hit r (p + d) = true := by
    obtain ⟨d, _, hd⟩ := hgap
    exact ⟨d, hd⟩
  have hfound := Nat.find_spec hex
  have hmin : ∀ e, e < Nat.find hex → hit r (p + e) = false := by
    intro e he
    have := Nat.find_min hex he
    simpa using this
  have hle : Nat.find hex < n := by
    obtain ⟨d, hdn, hd⟩ := hgap
    exact lt_of_le_of_lt (Nat.find_min' hex hd) hdn
  exact ⟨p + Nat.find hex, Nat.find hex, rfl, hle, hfound, hmin, first_hit h _ p hmin hfound⟩

/-- A reachable instance is the one before some cell `p` from which a hit lies
among the next `len(servers)` cells; the frozen fields are those of the
start. -/
theorem reachable_before {r s : RoundRobin} (h : Built r) (hr : before r 0 = r)
    (hs : Reachable r s) :
    ∃ p, s = before r p ∧ ∃ d, d < r.servers.length ∧ hit r (p + d) = true := by
  induction hs with
  | init => exact ⟨0, hr.symm, by simpa using gap_first h⟩
  | call s fuel u s1 _ hcall ih =>
    obtain ⟨p, rfl, hgap⟩ := ih
    obtain ⟨q, d, _, _, hq, _, hloop⟩ := call_before h p _ hgap
    rw [GetServer, hloop fuel] at hcall
    by_cases hc : fuel ≤ d
    · rw [if_pos hc] at hcall
      cases hcall
    · rw [if_neg hc] at hcall
      have hout : outcome r q = (u, s1) := by
        injection hcall
      have hs1 : s1 = before r (q + 1) := by
        have := congrArg Prod.snd hout
        simpa [outcome, before] using this.symm
      refine ⟨q + 1, hs1, ?_⟩
      simpa [Nat.add_assoc] using gap_next h q hq

/-- The instance `NewRoundRobin` returns on success is `fresh`, well built. -/
theorem NewRoundRobin_built {m : List (URL × Int)} {r : RoundRobin}
    (hnew : NewRoundRobin m = Run.done (some r, none)) :
    ValidMap m ∧ Built r ∧ before r 0 = r ∧ r.servers = m.map entry := by
  rcases NewRoundRobin_cases m with ⟨_, h⟩ | ⟨_, _, _, _, _, _, _, _, _, h⟩ | ⟨_, _, h⟩ |
    ⟨hv, M, g, hmax, hgcd, hM, hg, h⟩ | ⟨_, h⟩
  · rw [h] at hnew; cases hnew
  · rw [h] at hnew; cases hnew
  · rw [h] at hnew; cases hnew
  · rw [h] at hnew
    have hr : r = fresh m M g := by
      injection hnew with h0
      injection h0 with h1 _
      injection h1 with h2
      exact h2.symm
    subst hr
    refine ⟨hv, ?_, rfl, rfl⟩
    refine ⟨?_, hg, hM, ?_, ?_⟩
    · simpa [fresh] using hv.1
    · intro s hs
      obtain ⟨e, he, rfl⟩ := List.mem_map.1 hs
      have hmem : e.2 ∈ m.map Prod.snd := List.mem_map_of_mem _ he
      exact ⟨hv.2.1 e he, hmax.2 _ hmem, (hgcd.2 g).1 (dvd_refl _) _ hmem⟩
    · obtain ⟨e, he, heM⟩ := List.mem_map.1 hmax.1
      exact ⟨entry e, List.mem_map_of_mem _ he, heM⟩
  · rw [h] at hnew; cases hnew
/-- A call on a reachable instance: it ends at a hit `q` after `d + 1` iterations
with `d < len(servers)`, whatever fuel it is given beyond that. -/
theorem reachable_call {r s : RoundRobin} (h : Built r) (hr : before r 0 = r)
    (hs : Reachable r s) :
    ∃ q d, d < r.servers.length ∧ hit r q = true ∧
      ∀ fuel, GetServer fuel s =
        if fuel ≤ d then Run.timeout else Run.done (outcome r q) := by
  obtain ⟨p, rfl, hgap⟩ := reachable_before h hr hs
  obtain ⟨q, d, _, hd, hq, _, hloop⟩ := call_before h p _ hgap
  exact ⟨q, d, hd, hq, hloop⟩

/-- What a call that ends at the hit `q` returns: the URL of the entry at the
index it leaves, an entry of positive weight that reaches the threshold. -/
theorem outcome_hit {r : RoundRobin} (h : Built r) (q : Nat) (hq : hit r q = true) :
    ∃ srv, srv ∈ r.servers ∧
      (outcome r q).2.servers.get? (outcome r q).2.index.toNat = some srv ∧
      srv.url = (outcome r q).1 ∧ 0 < srv.weight ∧
      (outcome r q).2.currentWeight ≤ srv.weight ∧
      0 ≤ (outcome r q).2.index ∧ (outcome r q).2.index < r.servers.length ∧
      (outcome r q).2.servers = r.servers := by
  obtain ⟨srv, hget, hmem⟩ := get?_mod h q
  have hlt : q % r.servers.length < r.servers.length := Nat.mod_lt _ h.length_pos
  have hthr := h.threshold_bounds q
  have hg := h.gcd_pos
  have hw : threshold r q ≤ srv.weight := by
    simpa only [hit, weightAt, hget, decide_eq_true_eq] using hq
  refine ⟨srv, hmem, ?_, ?_, by linarith, hw, ?_, ?_, rfl⟩
  · simpa [outcome, stateAt] using hget
  · simp only [outcome, urlAt, hget]
  · simp only [outcome, stateAt]; omega
  · simp only [outcome, stateAt]; omega
/-! ## Counting hits over whole cycles -/

theorem countP_range'_shift (f : Nat → Bool) (T : Nat) (hf : ∀ q, f (q + T) = f q) :
    ∀ (m p : Nat), List.countP f (List.range' (p + T) m) = List.countP f (List.range' p m) := by
  intro m
  induction m with
  | zero => intro p; rfl
  | succ m ih =>
    intro p
    rw [List.range'_succ, List.range'_succ, List.countP_cons, List.countP_cons, hf p,
      show p + T + 1 = p + 1 + T by omega, ih (p + 1)]

theorem countP_range'_window (f : Nat → Bool) (T : Nat) (hf : ∀ q, f (q + T) = f q) :
    ∀ p : Nat, List.countP f (List.range' p T) = List.countP f (List.range' 0 T) := by
  intro p
  induction p with
  | zero => rfl
  | succ p ih =>
    rw [← ih]
    have h1 : List.countP f (List.range' p (T + 1)) =
        (if f p = true then 1 else 0) + List.countP f (List.range' (p + 1) T) := by
      rw [List.range'_succ, List.countP_cons]; omega
    have h2 : List.countP f (List.range' p (T + 1)) =
        List.countP f (List.range' p T) + (if f (p + T) = true then 1 else 0) := by
      rw [List.range'_1_concat, List.countP_append, List.countP_cons, List.countP_nil]; omega
    rw [hf p] at h2
    omega

theorem countP_range'_periods (f : Nat → Bool) (T : Nat) (hf : ∀ q, f (q + T) = f q) :
    ∀ (K p : Nat), List.countP f (List.range' p (K * T)) = K * List.countP f (List.range' 0 T) := by
  intro K
  induction K with
  | zero => intro p; simp
  | succ K ih =>
    intro p
    have : (K + 1) * T = K * T + T := by ring
    rw [this, ← List.range'_append p T (K * T) 1, List.countP_append, Nat.one_mul, ih (p + T),
      countP_range'_window f T hf p]
    ring

theorem countP_range_eq (G : Nat → Bool) (i : Nat) :
    ∀ n : Nat, List.countP (fun j => G j && decide (j = i)) (List.range n) =
      if i < n ∧ G i = true then 1 else 0 := by
  intro n
  induction n with
  | zero => simp
  | succ n ih =>
    rw [List.range_succ, List.countP_append, ih, List.countP_cons, List.countP_nil]
    by_cases hG : G i = true
    · by_cases hni : n = i
      · subst hni; simp [hG]
      · have h1 : (G n && decide (n = i)) = false := by simp [hni]
        by_cases hlt : i < n
        · simp [hG, hlt, h1, Nat.lt_succ_of_lt hlt]
        · have : ¬ i < n + 1 := by omega
          simp [hG, hlt, h1, this]
    · have h1 : (G n && decide (n = i)) = false := by
        by_cases hni : n = i
        · subst hni; simp [hG]
        · simp [hni]
      simp [hG, h1]

/-- The period of the schedule in cells. -/
theorem hit_periodic {r : RoundRobin} (h : Built r) (q : Nat) :
    hit r (q + r.servers.length * sweeps r) = hit r q := by
  have hN := h.length_pos
  simp only [hit, threshold, Nat.add_mul_div_left _ _ hN, Nat.add_mod_right,
    Nat.add_mul_mod_self_left]

theorem stateAt_periodic {r : RoundRobin} (h : Built r) (q : Nat) :
    stateAt r (q + r.servers.length * sweeps r) = stateAt r q := by
  have hN := h.length_pos
  simp only [stateAt, threshold, Nat.add_mul_div_left _ _ hN, Nat.add_mod_right,
    Nat.add_mul_mod_self_left]

/-- The number of times position `i` is returned by one cycle, as a natural
number. -/
theorem Built.share {r : RoundRobin} (h : Built r) (i : Nat) :
    (((weightAt r i / r.weightGcd).toNat : Nat) : Int) * r.weightGcd = weightAt r i ∧
      (weightAt r i / r.weightGcd).toNat ≤ sweeps r := by
  obtain ⟨h0, hM, hd⟩ := h.weightAt_bounds i
  have hg := h.gcd_pos
  have hnn : 0 ≤ weightAt r i / r.weightGcd := Int.ediv_nonneg h0 hg.le
  have h1 : (((weightAt r i / r.weightGcd).toNat : Nat) : Int) * r.weightGcd = weightAt r i := by
    rw [Int.toNat_of_nonneg hnn]
    exact Int.ediv_mul_cancel hd
  refine ⟨h1, ?_⟩
  have h2 := h.sweeps_mul
  have h3 : (((weightAt r i / r.weightGcd).toNat : Nat) : Int) * r.weightGcd
      ≤ (sweeps r : Int) * r.weightGcd := by rw [h1, h2]; exact hM
  have := le_of_mul_le_mul_right h3 hg
  exact_mod_cast this

/-- In sweep `S` position `i` is met once, and is a hit or not. -/
theorem countP_sweep (r : RoundRobin) (S i : Nat) (hi : i < r.servers.length) :
    List.countP (fun q => hit r q && decide (q % r.servers.length = i))
      (List.range' (S * r.servers.length) r.servers.length) =
      if hit r (S * r.servers.length + i) = true then 1 else 0 := by
  rw [List.range'_eq_map_range, List.countP_map]
  have hcongr : List.countP
      ((fun q => hit r q && decide (q % r.servers.length = i)) ∘
        fun x => S * r.servers.length + x) (List.range r.servers.length) =
      List.countP (fun j => (fun j => hit r (S * r.servers.length + j)) j && decide (j = i))
        (List.range r.servers.length) := by
    apply List.countP_congr
    intro j hj
    have hj1 : j < r.servers.length := List.mem_range.1 hj
    have := (mul_add_cell r.servers.length S j hj1).1
    simp only [Function.comp, this]
  rw [hcongr, countP_range_eq]
  simp [hi]

/-- Over the first `S` sweeps of a cycle, position `i` is a hit in the last
`weight / weightGcd` of them only. -/
theorem countP_sweeps {r : RoundRobin} (h : Built r) (i : Nat) (hi : i < r.servers.length) :
    ∀ S : Nat, S ≤ sweeps r →
      List.countP (fun q => hit r q && decide (q % r.servers.length = i))
        (List.range' 0 (S * r.servers.length)) =
      S - (sweeps r - (weightAt r i / r.weightGcd).toNat) := by
  obtain ⟨hk, hkR⟩ := h.share i
  have hRg := h.sweeps_mul
  have hg := h.gcd_pos
  intro S
  induction S with
  | zero => intro _; simp
  | succ S ih =>
    intro hS
    have : (S + 1) * r.servers.length = r.servers.length + S * r.servers.length := by ring
    rw [this, ← List.range'_append 0 (S * r.servers.length) r.servers.length 1,
      List.countP_append, ih (by omega), Nat.one_mul, Nat.zero_add, countP_sweep r S i hi,
      hit_cell r S i hi, Nat.mod_eq_of_lt (by omega : S < sweeps r)]
    simp only [decide_eq_true_eq]
    set k := (weightAt r i / r.weightGcd).toNat with hkdef
    have hiff : r.maxWeight - (S : Int) * r.weightGcd ≤ weightAt r i ↔ sweeps r ≤ k + S := by
      rw [← hk, ← hRg]
      constructor
      · intro hle
        have h1 : (sweeps r : Int) * r.weightGcd ≤ ((k : Int) + S) * r.weightGcd := by linarith
        have := le_of_mul_le_mul_right h1 hg
        exact_mod_cast this
      · intro hle
        have h1 : (sweeps r : Int) ≤ (k : Int) + S := by exact_mod_cast hle
        have := mul_le_mul_of_nonneg_right h1 hg.le
        linarith
    by_cases hc : sweeps r ≤ k + S
    · rw [if_pos (hiff.2 hc)]; omega
    · rw [if_neg (fun hx => hc (hiff.1 hx))]; omega

/-- Over one cycle of cells, position `i` is a hit `weight / weightGcd` times. -/
theorem countP_cycle {r : RoundRobin} (h : Built r) (i : Nat) (hi : i < r.servers.length) :
    List.countP (fun q => hit r q && decide (q % r.servers.length = i))
      (List.range' 0 (r.servers.length * sweeps r)) =
      (weightAt r i / r.weightGcd).toNat := by
  have := countP_sweeps h i hi (sweeps r) (le_refl _)
  rw [Nat.mul_comm] at this
  rw [this]
  have := (h.share i).2
  omega

/-- Over `K` cycles of cells from any cell on, position `i` is a hit
`K * (weight / weightGcd)` times. -/
theorem countP_cycles {r : RoundRobin} (h : Built r) (i : Nat) (hi : i < r.servers.length)
    (K p : Nat) :
    List.countP (fun q => decide (q % r.servers.length = i))
      (hitsFrom r p (K * (r.servers.length * sweeps r))) =
      K * (weightAt r i / r.weightGcd).toNat := by
  rw [hitsFrom, List.countP_filter]
  have hper : ∀ q, (fun q => decide (q % r.servers.length = i) && hit r q)
      (q + r.servers.length * sweeps r) =
      (fun q => decide (q % r.servers.length = i) && hit r q) q := by
    intro q
    simp only [hit_periodic h, Nat.add_mul_mod_self_left]
  rw [countP_range'_periods _ _ hper K p]
  congr 1
  rw [← countP_cycle h i hi]
  apply List.countP_congr
  intro q _
  simp [and_comm]
theorem sum_indicator (j : Nat) :
    ∀ n : Nat, ((List.range n).map (fun i => if j = i then 1 else 0)).sum =
      if j < n then 1 else 0 := by
  intro n
  induction n with
  | zero => simp
  | succ n ih =>
    rw [List.range_succ, List.map_append, List.sum_append, ih]
    simp only [List.map_cons, List.map_nil, List.sum_cons, List.sum_nil, Nat.add_zero]
    by_cases h1 : j < n
    · have : j ≠ n := by omega
      simp [h1, this, Nat.lt_succ_of_lt h1]
    · by_cases h2 : j = n
      · subst h2; simp
      · have : ¬ j < n + 1 := by omega
        simp [h1, h2, this]

/-- A list of cells is as long as the sum, over the positions, of the number of
its cells at that position. -/
theorem length_eq_sum_countP (N : Nat) (hN : 0 < N) (l : List Nat) :
    l.length = ((List.range N).map
      (fun i => l.countP (fun q => decide (q % N = i)))).sum := by
  induction l with
  | nil => simp
  | cons x l ih =>
    have hfun : (fun i => (x :: l).countP (fun q => decide (q % N = i))) =
        fun i => l.countP (fun q => decide (q % N = i)) + (if x % N = i then 1 else 0) := by
      funext i
      rw [List.countP_cons]
      simp
    rw [hfun, List.sum_map_add, ← ih, sum_indicator, if_pos (Nat.mod_lt _ hN)]
    rfl

theorem map_range_weight (G : Int → Nat) : ∀ l : List server,
    (List.range l.length).map
      (fun i => G (match l.get? i with
        | some s => s.weight
        | none => 0)) = l.map (fun s => G s.weight) := by
  intro l
  induction l with
  | nil => rfl
  | cons s l ih =>
    rw [List.length_cons, List.range_succ_eq_map, List.map_cons, List.map_map, List.map_cons,
      ← ih]
    simp only [List.get?_cons_zero, true_and, List.cons.injEq]
    apply List.map_congr_left
    intro i _
    simp

/-- The sum over the positions of `weight / weightGcd` is `period`. -/
theorem sum_share (r : RoundRobin) :
    ((List.range r.servers.length).map
      (fun i => (weightAt r i / r.weightGcd).toNat)).sum = period r := by
  have := map_range_weight (fun w => (w / r.weightGcd).toNat) r.servers
  simp only [weightAt, period]
  rw [← this]

/-- Over `K` cycles of cells from any cell on there are `K * period` hits. -/
theorem length_hits_cycles {r : RoundRobin} (h : Built r) (K p : Nat) :
    (hitsFrom r p (K * (r.servers.length * sweeps r))).length = K * period r := by
  rw [length_eq_sum_countP r.servers.length h.length_pos, ← sum_share r, ← List.sum_map_mul_left]
  congr 1
  apply List.map_congr_left
  intro i hi
  exact countP_cycles h i (List.mem_range.1 hi) K p
/-! ## The constructor -/

theorem isGcdOf_unique {g g1 : Int} {ws : List Int} (h : IsGcdOf g ws) (h1 : IsGcdOf g1 ws) :
    g = g1 := by
  have hd : g ∣ g1 := (h1.2 g).2 ((h.2 g).1 (dvd_refl _))
  have hd1 : g1 ∣ g := (h.2 g1).2 ((h1.2 g1).1 (dvd_refl _))
  exact Int.dvd_antisymm h.1 h1.1 hd hd1

theorem isGcdOf_foldr (ws : List Int) :
    IsGcdOf ((ws.foldr (fun (w : Int) (acc : Nat) => Int.gcd w acc) 0 : Nat) : Int) ws := by
  induction ws with
  | nil => exact ⟨le_refl _, fun d => by simp⟩
  | cons w ws ih =>
    refine ⟨Int.natCast_nonneg _, fun d => ?_⟩
    simp only [List.foldr_cons, List.mem_cons, forall_eq_or_imp]
    constructor
    · intro hd
      exact ⟨hd.trans Int.gcd_dvd_left, (ih.2 d).1 (hd.trans Int.gcd_dvd_right)⟩
    · rintro ⟨h1, h2⟩
      exact Int.dvd_gcd h1 ((ih.2 d).2 h2)

theorem not_validMap_of_error {m : List (URL × Int)} {msg : String}
    (h : NewRoundRobin m = Run.done (none, some msg)) : ¬ ValidMap m := by
  intro hv
  rcases NewRoundRobin_cases m with ⟨h0, _⟩ | ⟨pre, u, w, post, _, hm, _, hw, _, _⟩ |
    ⟨_, hz, _⟩ | ⟨_, M, g, _, _, _, _, hok⟩ | ⟨_, hp⟩
  · exact hv.1 h0
  · have := hv.2.1 (u, w) (by rw [hm]; simp)
    simp only at this
    omega
  · obtain ⟨e, he, hpos⟩ := hv.2.2
    have := hz e he
    omega
  · rw [hok] at h
    cases h
  · rw [hp] at h
    cases h

/-- The first negative entry of a list is determined by the list. -/
theorem first_negative_unique : ∀ (pre pre1 : List (URL × Int)) (u u1 : URL) (w w1 : Int)
    (post post1 : List (URL × Int)),
    pre ++ (u, w) :: post = pre1 ++ (u1, w1) :: post1 →
    (∀ e ∈ pre, 0 ≤ e.2) → w < 0 → (∀ e ∈ pre1, 0 ≤ e.2) → w1 < 0 → u = u1 := by
  intro pre
  induction pre with
  | nil =>
    intro pre1 u u1 w w1 post post1 heq _ hw hpre1 _
    cases pre1 with
    | nil =>
      simp only [List.nil_append, List.cons.injEq, Prod.mk.injEq] at heq
      exact heq.1.1
    | cons e pre1 =>
      simp only [List.nil_append, List.cons_append, List.cons.injEq] at heq
      have := hpre1 e (List.mem_cons_self _ _)
      rw [← heq.1] at this
      simp only at this
      omega
  | cons e pre ih =>
    intro pre1 u u1 w w1 post post1 heq hpre hw hpre1 hw1
    cases pre1 with
    | nil =>
      simp only [List.nil_append, List.cons_append, List.cons.injEq] at heq
      have := hpre e (List.mem_cons_self _ _)
      rw [heq.1] at this
      simp only at this
      omega
    | cons e1 pre1 =>
      simp only [List.cons_append, List.cons.injEq] at heq
      exact ih pre1 u u1 w w1 post post1 heq.2
        (fun x hx => hpre x (List.mem_cons_of_mem _ hx)) hw
        (fun x hx => hpre1 x (List.mem_cons_of_mem _ hx)) hw1

theorem firstNegativeNil_not_valid {m : List (URL × Int)} (h : FirstNegativeNil m) :
    ¬ ValidMap m := by
  obtain ⟨pre, w, post, hm, _, hw⟩ := h
  intro hv
  have := hv.2.1 (URL.nil, w) (by rw [hm]; simp)
  simp only at this
  omega

/-- The constructor panics exactly when the first negative entry has the key
`nil`. -/
theorem NewRoundRobin_panic_iff (m : List (URL × Int)) :
    NewRoundRobin m = Run.panic ↔ FirstNegativeNil m := by
  rcases NewRoundRobin_cases m with ⟨h0, h⟩ | ⟨pre, u, w, post, text, hm, hpre, hw, hu, h⟩ |
    ⟨_, hz, h⟩ | ⟨hv, _, _, _, _, _, _, h⟩ | ⟨hnil, h⟩
  · have hnp : NewRoundRobin m ≠ Run.panic := by
      rw [h]
      intro hc
      cases hc
    refine ⟨fun hp => absurd hp hnp, fun hn => ?_⟩
    obtain ⟨pre, w, post, hm, _, _⟩ := hn
    rw [h0] at hm
    simp at hm
  · have hnp : NewRoundRobin m ≠ Run.panic := by
      rw [h]
      intro hc
      cases hc
    refine ⟨fun hp => absurd hp hnp, fun hn => ?_⟩
    obtain ⟨pre1, w1, post1, hm1, hpre1, hw1⟩ := hn
    have := first_negative_unique pre pre1 u URL.nil w w1 post post1 (hm.symm.trans hm1)
      hpre hw hpre1 hw1
    rw [this] at hu
    cases hu
  · have hnp : NewRoundRobin m ≠ Run.panic := by
      rw [h]
      intro hc
      cases hc
    refine ⟨fun hp => absurd hp hnp, fun hn => ?_⟩
    obtain ⟨pre, w, post, hm, _, hw⟩ := hn
    have := hz (URL.nil, w) (by rw [hm]; simp)
    simp only at this
    omega
  · have hnp : NewRoundRobin m ≠ Run.panic := by
      rw [h]
      intro hc
      cases hc
    exact ⟨fun hp => absurd hp hnp, fun hn => absurd hv (firstNegativeNil_not_valid hn)⟩
  · exact ⟨fun _ => hnil, fun _ => h⟩

/-- C4, as stated, fails on the map with the one entry `nil: -1`: the map is not
valid, and the constructor returns neither an instance nor an error, because
`url.String()` panics on the `nil` key. -/
theorem construction_nil_key_counterexample :
    ¬ ValidMap [(URL.nil, -1)] ∧ NewRoundRobin [(URL.nil, -1)] = Run.panic ∧
    ∀ inst err, NewRoundRobin [(URL.nil, -1)] ≠ Run.done (inst, err) := by
  refine ⟨fun hv => ?_, by decide, fun inst err h => ?_⟩
  · have := hv.2.1 (URL.nil, -1) (by simp)
    simp only at this
    omega
  · have hp : NewRoundRobin [(URL.nil, -1)] = Run.panic := by decide
    rw [hp] at h
    cases h

/-- C4, amended: `NewRoundRobin` returns an instance with a nil error exactly
when the map is non-empty, has no negative weight and has a positive weight; it
panics exactly when the first negative weight it meets has the key `nil`; on
every other map it returns a nil instance with a non-nil error.  When it
returns, it returns an instance or an error, never both and never neither. -/
theorem construction_outcomes (m : List (URL × Int)) :
    ((∃ r, NewRoundRobin m = Run.done (some r, none)) ↔ ValidMap m) ∧
    (NewRoundRobin m = Run.panic ↔ FirstNegativeNil m) ∧
    ((∃ msg, NewRoundRobin m = Run.done (none, some msg)) ↔
      ¬ ValidMap m ∧ ¬ FirstNegativeNil m) ∧
    (∀ inst err, NewRoundRobin m = Run.done (inst, err) → (inst = none ↔ err ≠ none)) ∧
    NewRoundRobin m ≠ Run.timeout := by
  have hpanic := NewRoundRobin_panic_iff m
  have herr : ∀ msg, NewRoundRobin m = Run.done (none, some msg) →
      ((∃ r, NewRoundRobin m = Run.done (some r, none)) ↔ ValidMap m) ∧
      (NewRoundRobin m = Run.panic ↔ FirstNegativeNil m) ∧
      ((∃ msg, NewRoundRobin m = Run.done (none, some msg)) ↔
        ¬ ValidMap m ∧ ¬ FirstNegativeNil m) ∧
      (∀ inst err, NewRoundRobin m = Run.done (inst, err) → (inst = none ↔ err ≠ none)) ∧
      NewRoundRobin m ≠ Run.timeout := by
    intro msg h
    have hnv := not_validMap_of_error h
    have hnp : ¬ FirstNegativeNil m := fun hn => by
      rw [hpanic.2 hn] at h
      cases h
    have hno : ¬ ∃ r, NewRoundRobin m = Run.done (some r, none) := by
      rintro ⟨r, hr⟩
      rw [h] at hr
      cases hr
    refine ⟨⟨fun hr => absurd hr hno, fun hv => absurd hv hnv⟩, hpanic,
      ⟨fun _ => ⟨hnv, hnp⟩, fun _ => ⟨_, h⟩⟩, ?_, ?_⟩
    · intro inst err hie
      rw [h] at hie
      injection hie with hie
      injection hie with h1 h2
      subst h1 h2
      simp
    · rw [h]
      exact fun hc => by cases hc
  rcases NewRoundRobin_cases m with ⟨_, h⟩ | ⟨_, _, _, _, _, _, _, _, _, h⟩ | ⟨_, _, h⟩ |
    ⟨hv, M, g, _, _, _, _, h⟩ | ⟨hnil, h⟩
  · exact herr _ h
  · exact herr _ h
  · exact herr _ h
  · have hno : ¬ ∃ msg, NewRoundRobin m = Run.done (none, some msg) := by
      rintro ⟨msg, hmsg⟩
      rw [h] at hmsg
      cases hmsg
    refine ⟨⟨fun _ => hv, fun _ => ⟨_, h⟩⟩, hpanic,
      ⟨fun hmsg => absurd hmsg hno, fun hnv => absurd hv hnv.1⟩, ?_, ?_⟩
    · intro inst err hie
      rw [h] at hie
      injection hie with hie
      injection hie with h1 h2
      subst h1 h2
      simp
    · rw [h]
      exact fun hc => by cases hc
  · have hnv := firstNegativeNil_not_valid hnil
    have hno : ¬ ∃ r, NewRoundRobin m = Run.done (some r, none) := by
      rintro ⟨r, hr⟩
      rw [h] at hr
      cases hr
    have hno1 : ¬ ∃ msg, NewRoundRobin m = Run.done (none, some msg) := by
      rintro ⟨msg, hmsg⟩
      rw [h] at hmsg
      cases hmsg
    refine ⟨⟨fun hr => absurd hr hno, fun hv => absurd hv hnv⟩, hpanic,
      ⟨fun hmsg => absurd hmsg hno1, fun hc => absurd hnil hc.2⟩, ?_, ?_⟩
    · intro inst err hie
      rw [h] at hie
      cases hie
    · rw [h]
      exact fun hc => by cases hc

/-- C5, as stated, fails on the map `url1: 0, nil: -1` iterated in this order:
it is non-empty and has a negative weight, and the constructor returns no error
at all, because `url.String()` panics on the `nil` key of the negative entry. -/
theorem negative_weight_nil_key_counterexample :
    (∃ e ∈ [(url1, (0 : Int)), (URL.nil, -1)], e.2 < 0) ∧
    NewRoundRobin [(url1, 0), (URL.nil, -1)] = Run.panic ∧
    ∀ inst err, NewRoundRobin [(url1, 0), (URL.nil, -1)] ≠ Run.done (inst, err) := by
  refine ⟨⟨(URL.nil, -1), by simp, by decide⟩, by decide, fun inst err h => ?_⟩
  have hp : NewRoundRobin [(url1, 0), (URL.nil, -1)] = Run.panic := by decide
  rw [hp] at h
  cases h

/-- C5, amended: on a map with a negative weight, whatever the other weights
are, the constructor stops at the first negative entry in iteration order.  When
that entry's key is not `nil` it returns no instance and the error
`Weight of server '<URL>' is less than 0` for that key; when it is `nil` the
constructor panics.  It never returns the error `All servers have 0 weight`. -/
theorem negative_weight_error (m : List (URL × Int)) (hneg : ∃ e ∈ m, e.2 < 0) :
    ∃ pre u w post, m = pre ++ (u, w) :: post ∧ (∀ e ∈ pre, 0 ≤ e.2) ∧ w < 0 ∧
      ((∃ text, u.String = some text ∧
          NewRoundRobin m =
            Run.done (none, some ("Weight of server" ++ " '" ++ text ++ "' " ++
              "is less than 0"))) ∨
        (u = URL.nil ∧ NewRoundRobin m = Run.panic)) ∧
      (u ≠ URL.nil → ∃ text, u.String = some text ∧
          NewRoundRobin m =
            Run.done (none, some ("Weight of server" ++ " '" ++ text ++ "' " ++
              "is less than 0"))) ∧
      ∀ inst, NewRoundRobin m ≠ Run.done (inst, some "All servers have 0 weight") := by
  have hmsg : ∀ text : String, "Weight of server" ++ " '" ++ text ++ "' " ++ "is less than 0"
      = negativeWeightMsg text := by
    intro text
    apply String.ext
    simp [negativeWeightMsg, String.data_append]
  rcases NewRoundRobin_cases m with ⟨h0, _⟩ | ⟨pre, u, w, post, text, hm, hpre, hw, hu, h⟩ |
    ⟨_, hz, _⟩ | ⟨hv, _⟩ | ⟨⟨pre, w, post, hm, hpre, hw⟩, h⟩
  · obtain ⟨e, he, _⟩ := hneg
    rw [h0] at he
    simp at he
  · refine ⟨pre, u, w, post, hm, hpre, hw, Or.inl ⟨text, hu, by rw [h, hmsg]⟩,
      fun _ => ⟨text, hu, by rw [h, hmsg]⟩, ?_⟩
    intro inst hc
    rw [h] at hc
    injection hc with hc
    injection hc with _ hc
    exact negativeWeightMsg_ne_allZero text (Option.some.inj hc)
  · obtain ⟨e, he, hlt⟩ := hneg
    have := hz e he
    omega
  · obtain ⟨e, he, hlt⟩ := hneg
    have := hv.2.1 e he
    omega
  · refine ⟨pre, URL.nil, w, post, hm, hpre, hw, Or.inr ⟨rfl, h⟩, fun hc => absurd rfl hc, ?_⟩
    intro inst hc
    rw [h] at hc
    cases hc

/-- C6: on the empty map `NewRoundRobin` returns no instance and the error
`Must specify at least one server`, and it returns this error on no other
map. -/
theorem empty_map_error (m : List (URL × Int)) :
    NewRoundRobin [] = Run.done (none, some "Must specify at least one server") ∧
    ((∃ inst, NewRoundRobin m = Run.done (inst, some "Must specify at least one server")) ↔
      m = []) := by
  refine ⟨rfl, ?_, ?_⟩
  · rintro ⟨inst, hmsg⟩
    rcases NewRoundRobin_cases m with ⟨h0, _⟩ | ⟨_, _, _, _, text, _, _, _, _, h⟩ | ⟨_, _, h⟩ |
      ⟨_, _, _, _, _, _, _, h⟩ | ⟨_, h⟩
    · exact h0
    · rw [h] at hmsg
      injection hmsg with hmsg
      injection hmsg with _ hmsg
      exact absurd (Option.some.inj hmsg) (negativeWeightMsg_ne_empty text)
    · rw [h] at hmsg
      injection hmsg with hmsg
      injection hmsg with _ hmsg
      exact absurd (Option.some.inj hmsg) (by decide)
    · rw [h] at hmsg
      injection hmsg with hmsg
      injection hmsg with _ hmsg
      cases hmsg
    · rw [h] at hmsg
      cases hmsg
  · rintro rfl
    exact ⟨none, rfl⟩

/-- C7: on a non-empty map whose weights are all 0, `NewRoundRobin` returns no
instance and the error `All servers have 0 weight`, and it returns this error
on no other map. -/
theorem all_zero_error (m : List (URL × Int)) :
    (m ≠ [] ∧ (∀ e ∈ m, e.2 = 0) →
      NewRoundRobin m = Run.done (none, some "All servers have 0 weight")) ∧
    (∀ inst, NewRoundRobin m = Run.done (inst, some "All servers have 0 weight") →
      inst = none ∧ m ≠ [] ∧ ∀ e ∈ m, e.2 = 0) := by
  rcases NewRoundRobin_cases m with ⟨h0, h⟩ | ⟨_, u, w, _, text, hm, _, hw, _, h⟩ |
    ⟨hne, hz, h⟩ | ⟨hv, _, _, _, _, _, _, h⟩ | ⟨⟨_, w, _, hm, _, hw⟩, h⟩
  · refine ⟨fun hc => absurd h0 hc.1, fun inst hmsg => ?_⟩
    rw [h] at hmsg
    injection hmsg with hmsg
    injection hmsg with _ hmsg
    exact absurd (Option.some.inj hmsg) (by decide)
  · refine ⟨fun hc => ?_, fun inst hmsg => ?_⟩
    · have := hc.2 (u, w) (by rw [hm]; simp)
      simp only at this
      omega
    · rw [h] at hmsg
      injection hmsg with hmsg
      injection hmsg with _ hmsg
      exact absurd (Option.some.inj hmsg) (negativeWeightMsg_ne_allZero text)
  · refine ⟨fun _ => h, fun inst hmsg => ⟨?_, hne, hz⟩⟩
    rw [h] at hmsg
    injection hmsg with hmsg
    injection hmsg with h1 _
    exact h1.symm
  · refine ⟨fun hc => ?_, fun inst hmsg => ?_⟩
    · obtain ⟨e, he, hpos⟩ := hv.2.2
      have := hc.2 e he
      omega
    · rw [h] at hmsg
      injection hmsg with hmsg
      injection hmsg with _ hmsg
      cases hmsg
  · refine ⟨fun hc => ?_, fun inst hmsg => ?_⟩
    · have := hc.2 (URL.nil, w) (by rw [hm]; simp)
      simp only at this
      omega
    · rw [h] at hmsg
      cases hmsg

/-- C8: when `NewRoundRobin` succeeds on a map iterated in some order, the
instance has the map's entries in that order as its servers, the maximum of the
weights as `maxWeight`, the greatest common divisor of all the weights (zeros
included, wherever they stand) as `weightGcd`, both positive, `index = -1` and
`currentWeight = 0`. -/
theorem construction_postconditions (m : List (URL × Int)) (r : RoundRobin)
    (hnew : NewRoundRobin m = Run.done (some r, none)) :
    r.servers = m.map (fun e => ({ url := e.1, weight := e.2 } : server)) ∧
    r.servers.length = m.length ∧
    (r.maxWeight ∈ m.map Prod.snd ∧ ∀ w ∈ m.map Prod.snd, w ≤ r.maxWeight) ∧
    (∀ d : Int, d ∣ r.weightGcd ↔ ∀ w ∈ m.map Prod.snd, d ∣ w) ∧
    r.weightGcd = (((m.map Prod.snd).foldr (fun (w : Int) (acc : Nat) => Int.gcd w acc) 0 : Nat)
      : Int) ∧
    0 < r.maxWeight ∧ 0 < r.weightGcd ∧ r.index = -1 ∧ r.currentWeight = 0 := by
  rcases NewRoundRobin_cases m with ⟨_, h⟩ | ⟨_, _, _, _, _, _, _, _, _, h⟩ | ⟨_, _, h⟩ |
    ⟨hv, M, g, hmax, hgcd, hM, hg, h⟩ | ⟨_, h⟩
  · rw [h] at hnew; cases hnew
  · rw [h] at hnew; cases hnew
  · rw [h] at hnew; cases hnew
  · rw [h] at hnew
    have hr : r = fresh m M g := by
      injection hnew with h0
      injection h0 with h1 _
      injection h1 with h2
      exact h2.symm
    subst hr
    exact ⟨rfl, by simp [fresh], hmax, hgcd.2, isGcdOf_unique hgcd (isGcdOf_foldr _), hM, hg,
      rfl, rfl⟩
  · rw [h] at hnew; cases hnew
theorem negative_weight_error_witness :
    (∃ e ∈ [(url1, (0 : Int)), (url2, -1), (url3, -2)], e.2 < 0) ∧
    ∃ pre u w post, [(url1, (0 : Int)), (url2, -1), (url3, -2)] = pre ++ (u, w) :: post ∧
      (∀ e ∈ pre, 0 ≤ e.2) ∧ w < 0 ∧
      ((∃ text, u.String = some text ∧
          NewRoundRobin [(url1, (0 : Int)), (url2, -1), (url3, -2)] =
            Run.done (none, some ("Weight of server" ++ " '" ++ text ++ "' " ++
              "is less than 0"))) ∨
        (u = URL.nil ∧
          NewRoundRobin [(url1, (0 : Int)), (url2, -1), (url3, -2)] = Run.panic)) ∧
      (u ≠ URL.nil → ∃ text, u.String = some text ∧
          NewRoundRobin [(url1, (0 : Int)), (url2, -1), (url3, -2)] =
            Run.done (none, some ("Weight of server" ++ " '" ++ text ++ "' " ++
              "is less than 0"))) ∧
      ∀ inst, NewRoundRobin [(url1, (0 : Int)), (url2, -1), (url3, -2)] ≠
        Run.done (inst, some "All servers have 0 weight") :=
  ⟨⟨(url2, -1), by simp, by decide⟩,
    negative_weight_error [(url1, (0 : Int)), (url2, -1), (url3, -2)]
      ⟨(url2, -1), by simp, by decide⟩⟩

theorem construction_postconditions_witness :
    NewRoundRobin [(url1, 0), (url2, 6), (url3, 4)] =
      Run.done (some ⟨[⟨url1, 0⟩, ⟨url2, 6⟩, ⟨url3, 4⟩], -1, 0, 6, 2⟩, none) ∧
    ((⟨[⟨url1, 0⟩, ⟨url2, 6⟩, ⟨url3, 4⟩], -1, 0, 6, 2⟩ : RoundRobin).servers =
      [(url1, (0 : Int)), (url2, 6), (url3, 4)].map
        (fun e => ({ url := e.1, weight := e.2 } : server)) ∧
    (⟨[⟨url1, 0⟩, ⟨url2, 6⟩, ⟨url3, 4⟩], -1, 0, 6, 2⟩ : RoundRobin).servers.length =
      [(url1, (0 : Int)), (url2, 6), (url3, 4)].length ∧
    ((⟨[⟨url1, 0⟩, ⟨url2, 6⟩, ⟨url3, 4⟩], -1, 0, 6, 2⟩ : RoundRobin).maxWeight ∈
        [(url1, (0 : Int)), (url2, 6), (url3, 4)].map Prod.snd ∧
      ∀ w ∈ [(url1, (0 : Int)), (url2, 6), (url3, 4)].map Prod.snd,
        w ≤ (⟨[⟨url1, 0⟩, ⟨url2, 6⟩, ⟨url3, 4⟩], -1, 0, 6, 2⟩ : RoundRobin).maxWeight) ∧
    (∀ d : Int, d ∣ (⟨[⟨url1, 0⟩, ⟨url2, 6⟩, ⟨url3, 4⟩], -1, 0, 6, 2⟩ : RoundRobin).weightGcd ↔
      ∀ w ∈ [(url1, (0 : Int)), (url2, 6), (url3, 4)].map Prod.snd, d ∣ w) ∧
    (⟨[⟨url1, 0⟩, ⟨url2, 6⟩, ⟨url3, 4⟩], -1, 0, 6, 2⟩ : RoundRobin).weightGcd =
      ((([(url1, (0 : Int)), (url2, 6), (url3, 4)].map Prod.snd).foldr
        (fun (w : Int) (acc : Nat) => Int.gcd w acc) 0 : Nat) : Int) ∧
    0 < (⟨[⟨url1, 0⟩, ⟨url2, 6⟩, ⟨url3, 4⟩], -1, 0, 6, 2⟩ : RoundRobin).maxWeight ∧
    0 < (⟨[⟨url1, 0⟩, ⟨url2, 6⟩, ⟨url3, 4⟩], -1, 0, 6, 2⟩ : RoundRobin).weightGcd ∧
    (⟨[⟨url1, 0⟩, ⟨url2, 6⟩, ⟨url3, 4⟩], -1, 0, 6, 2⟩ : RoundRobin).index = -1 ∧
    (⟨[⟨url1, 0⟩, ⟨url2, 6⟩, ⟨url3, 4⟩], -1, 0, 6, 2⟩ : RoundRobin).currentWeight = 0) :=
  ⟨by decide,
    construction_postconditions [(url1, 0), (url2, 6), (url3, 4)]
      ⟨[⟨url1, 0⟩, ⟨url2, 6⟩, ⟨url3, 4⟩], -1, 0, 6, 2⟩ (by decide)⟩
/-! ## Single calls on reachable instances -/

/-- C2: on an instance built by `NewRoundRobin`, a call of `GetServer` made
after any number of earlier calls returns the URL of the entry at the index it
leaves, and that entry's weight is not 0. -/
theorem zero_weight_never_returned (m : List (URL × Int)) (r : RoundRobin)
    (hnew : NewRoundRobin m = Run.done (some r, none)) (s : RoundRobin) (hs : Reachable r s)
    (fuel : Nat) (u : URL) (s1 : RoundRobin)
    (hcall : GetServer fuel s = Run.done (u, s1)) :
    ∃ srv, s1.servers.get? s1.index.toNat = some srv ∧ 0 ≤ s1.index ∧ srv ∈ r.servers ∧
      srv.url = u ∧ srv.weight ≠ 0 := by
  obtain ⟨_, hb, hr, _⟩ := NewRoundRobin_built hnew
  obtain ⟨q, d, _, hq, hloop⟩ := reachable_call hb hr hs
  rw [hloop fuel] at hcall
  by_cases hc : fuel ≤ d
  · rw [if_pos hc] at hcall
    cases hcall
  · rw [if_neg hc] at hcall
    have hout : outcome r q = (u, s1) := by
      injection hcall
    obtain ⟨srv, hmem, hget, hurl, hpos, _, hidx, _, _⟩ := outcome_hit hb q hq
    rw [hout] at hget hurl hidx
    exact ⟨srv, hget, hidx, hmem, hurl, by omega⟩

theorem zero_weight_never_returned_witness :
    NewRoundRobin [(url1, 1), (url2, 0)] =
      Run.done (some ⟨[⟨url1, 1⟩, ⟨url2, 0⟩], -1, 0, 1, 1⟩, none) ∧
    Reachable ⟨[⟨url1, 1⟩, ⟨url2, 0⟩], -1, 0, 1, 1⟩ ⟨[⟨url1, 1⟩, ⟨url2, 0⟩], 0, 1, 1, 1⟩ ∧
    GetServer 2 ⟨[⟨url1, 1⟩, ⟨url2, 0⟩], 0, 1, 1, 1⟩ =
      Run.done (url1, ⟨[⟨url1, 1⟩, ⟨url2, 0⟩], 0, 1, 1, 1⟩) ∧
    ∃ srv, ([⟨url1, 1⟩, ⟨url2, 0⟩] : List server).get? (0 : Int).toNat = some srv ∧
      (0 : Int) ≤ 0 ∧ srv ∈ ([⟨url1, 1⟩, ⟨url2, 0⟩] : List server) ∧
      srv.url = url1 ∧ srv.weight ≠ 0 :=
  ⟨by decide, Reachable.call _ 1 url1 _ Reachable.init (by decide), by decide,
    zero_weight_never_returned [(url1, 1), (url2, 0)] ⟨[⟨url1, 1⟩, ⟨url2, 0⟩], -1, 0, 1, 1⟩
      (by decide) ⟨[⟨url1, 1⟩, ⟨url2, 0⟩], 0, 1, 1, 1⟩
      (Reachable.call _ 1 url1 _ Reachable.init (by decide)) 2 url1
      ⟨[⟨url1, 1⟩, ⟨url2, 0⟩], 0, 1, 1, 1⟩ (by decide)⟩

/-- C3: on an instance built by `NewRoundRobin`, a call of `GetServer` made
after any number of earlier calls does not panic, whatever the number of
iterations it is allowed, and allowed `len(servers)` iterations it returns: the
index it leaves is inside the server list, which is unchanged, and the URL
returned is that of the entry at this index, one of the URLs of the map. -/
theorem getServer_never_fails (m : List (URL × Int)) (r : RoundRobin)
    (hnew : NewRoundRobin m = Run.done (some r, none)) (s : RoundRobin) (hs : Reachable r s) :
    (∀ fuel, GetServer fuel s ≠ Run.panic) ∧
    ∃ u s1, (∀ fuel, r.servers.length ≤ fuel → GetServer fuel s = Run.done (u, s1)) ∧
      0 ≤ s1.index ∧ s1.index < s1.servers.length ∧ s1.servers = r.servers ∧
      (∃ w, s1.servers.get? s1.index.toNat = some ⟨u, w⟩ ∧ (u, w) ∈ m) ∧
      u ∈ m.map Prod.fst := by
  obtain ⟨_, hb, hr, hsrv⟩ := NewRoundRobin_built hnew
  obtain ⟨q, d, hd, hq, hloop⟩ := reachable_call hb hr hs
  obtain ⟨srv, hmem, hget, hurl, _, _, hidx, hlt, hservers⟩ := outcome_hit hb q hq
  have hmem1 : (srv.url, srv.weight) ∈ m := by
    rw [hsrv] at hmem
    obtain ⟨e, he, rfl⟩ := List.mem_map.1 hmem
    exact he
  refine ⟨fun fuel => ?_, (outcome r q).1, (outcome r q).2, fun fuel hfuel => ?_, hidx, ?_,
    hservers, ⟨srv.weight, ?_, ?_⟩, ?_⟩
  · rw [hloop fuel]
    split <;> simp
  · rw [hloop fuel, if_neg (by omega)]
  · rw [hservers]; exact hlt
  · rw [hget, ← hurl]
  · rw [← hurl]; exact hmem1
  · rw [← hurl]; exact List.mem_map_of_mem Prod.fst hmem1

theorem getServer_never_fails_witness :
    NewRoundRobin [(url1, 1), (url2, 2)] =
      Run.done (some ⟨[⟨url1, 1⟩, ⟨url2, 2⟩], -1, 0, 2, 1⟩, none) ∧
    Reachable ⟨[⟨url1, 1⟩, ⟨url2, 2⟩], -1, 0, 2, 1⟩ ⟨[⟨url1, 1⟩, ⟨url2, 2⟩], 1, 2, 2, 1⟩ ∧
    ((∀ fuel, GetServer fuel ⟨[⟨url1, 1⟩, ⟨url2, 2⟩], 1, 2, 2, 1⟩ ≠ Run.panic) ∧
    ∃ u s1, (∀ fuel, (⟨[⟨url1, 1⟩, ⟨url2, 2⟩], -1, 0, 2, 1⟩ : RoundRobin).servers.length ≤ fuel →
        GetServer fuel ⟨[⟨url1, 1⟩, ⟨url2, 2⟩], 1, 2, 2, 1⟩ = Run.done (u, s1)) ∧
      0 ≤ s1.index ∧ s1.index < s1.servers.length ∧
      s1.servers = (⟨[⟨url1, 1⟩, ⟨url2, 2⟩], -1, 0, 2, 1⟩ : RoundRobin).servers ∧
      (∃ w, s1.servers.get? s1.index.toNat = some ⟨u, w⟩ ∧ (u, w) ∈ [(url1, 1), (url2, 2)]) ∧
      u ∈ [(url1, (1 : Int)), (url2, 2)].map Prod.fst) :=
  ⟨by decide, Reachable.call _ 2 url2 _ Reachable.init (by decide),
    getServer_never_fails [(url1, 1), (url2, 2)] ⟨[⟨url1, 1⟩, ⟨url2, 2⟩], -1, 0, 2, 1⟩
      (by decide) ⟨[⟨url1, 1⟩, ⟨url2, 2⟩], 1, 2, 2, 1⟩
      (Reachable.call _ 2 url2 _ Reachable.init (by decide))⟩

/-- C10: on an instance built by `NewRoundRobin`, after any number of earlier
calls, the loop of `GetServer` ends: there is a number `n` of iterations, at
least 1 and at most `len(servers)`, before which the loop is still running and
from which on it has returned one and the same result. -/
theorem getServer_terminates (m : List (URL × Int)) (r : RoundRobin)
    (hnew : NewRoundRobin m = Run.done (some r, none)) (s : RoundRobin) (hs : Reachable r s) :
    ∃ n res, 1 ≤ n ∧ n ≤ r.servers.length ∧
      ∀ fuel, GetServer fuel s = if fuel < n then Run.timeout else Run.done res := by
  obtain ⟨_, hb, hr, _⟩ := NewRoundRobin_built hnew
  obtain ⟨q, d, hd, _, hloop⟩ := reachable_call hb hr hs
  refine ⟨d + 1, outcome r q, by omega, by omega, fun fuel => ?_⟩
  rw [hloop fuel]
  by_cases hc : fuel ≤ d
  · rw [if_pos hc, if_pos (by omega)]
  · rw [if_neg hc, if_neg (by omega)]

theorem getServer_terminates_witness :
    NewRoundRobin [(url1, 2), (url2, 0), (url3, 4)] =
      Run.done (some ⟨[⟨url1, 2⟩, ⟨url2, 0⟩, ⟨url3, 4⟩], -1, 0, 4, 2⟩, none) ∧
    Reachable ⟨[⟨url1, 2⟩, ⟨url2, 0⟩, ⟨url3, 4⟩], -1, 0, 4, 2⟩
      ⟨[⟨url1, 2⟩, ⟨url2, 0⟩, ⟨url3, 4⟩], 2, 4, 4, 2⟩ ∧
    ∃ n res, 1 ≤ n ∧
      n ≤ (⟨[⟨url1, 2⟩, ⟨url2, 0⟩, ⟨url3, 4⟩], -1, 0, 4, 2⟩ : RoundRobin).servers.length ∧
      ∀ fuel, GetServer fuel ⟨[⟨url1, 2⟩, ⟨url2, 0⟩, ⟨url3, 4⟩], 2, 4, 4, 2⟩ =
        if fuel < n then Run.timeout else Run.done res :=
  ⟨by decide, Reachable.call _ 3 url3 _ Reachable.init (by decide),
    getServer_terminates [(url1, 2), (url2, 0), (url3, 4)]
      ⟨[⟨url1, 2⟩, ⟨url2, 0⟩, ⟨url3, 4⟩], -1, 0, 4, 2⟩ (by decide)
      ⟨[⟨url1, 2⟩, ⟨url2, 0⟩, ⟨url3, 4⟩], 2, 4, 4, 2⟩
      (Reachable.call _ 3 url3 _ Reachable.init (by decide))⟩
/-! ## Sequences of calls -/

/-- The calls after the first `a` of them, over `K` cycles of cells: `b` is the
boundary after `a` calls. -/
theorem calls_window {r : RoundRobin} (h : Built r) (hr : before r 0 = r) (K a fuel : Nat)
    (hfuel : r.servers.length ≤ fuel) :
    ∃ b, (hitsFrom r 0 b).length = a ∧
      GetServerN fuel (a + K * period r) r =
        Run.done ((hitsFrom r 0 b).map (outcome r) ++
          (hitsFrom r b (K * (r.servers.length * sweeps r))).map (outcome r)) := by
  obtain ⟨b, hb, _⟩ := exists_boundary h a
  refine ⟨b, hb, ?_⟩
  have hgap : ∃ d, d < fuel ∧ hit r (0 + d) = true := by
    obtain ⟨d, hd, hhit⟩ := gap_first h
    exact ⟨d, by omega, by simpa using hhit⟩
  have hcalls := calls_from h fuel hfuel 0 (b + K * (r.servers.length * sweeps r)) hgap
  rw [hitsFrom_add, List.length_append, hb, length_hits_cycles h, Nat.zero_add, hr,
    List.map_append] at hcalls
  exact hcalls

/-- Distinct keys: two positions of the server list with the same URL are the
same position. -/
theorem url_position_inj {l : List server} (hnd : (l.map (fun s => s.url)).Nodup)
    {i j : Nat} {s1 s2 : server} (h1 : l.get? i = some s1) (h2 : l.get? j = some s2)
    (hurl : s1.url = s2.url) : i = j := by
  have hnd1 := List.nodup_iff_getElem?_ne_getElem?.1 hnd
  have g1 : (l.map (fun s => s.url))[i]? = some s1.url := by
    rw [List.get?_eq_getElem?] at h1
    rw [List.getElem?_map, h1, Option.map_some']
  have g2 : (l.map (fun s => s.url))[j]? = some s2.url := by
    rw [List.get?_eq_getElem?] at h2
    rw [List.getElem?_map, h2, Option.map_some']
  have hj : j < (l.map (fun s => s.url)).length := by
    by_contra hc
    rw [List.getElem?_eq_none (by omega)] at g2
    cases g2
  have hi : i < (l.map (fun s => s.url)).length := by
    by_contra hc
    rw [List.getElem?_eq_none (by omega)] at g1
    cases g1
  by_contra hne
  rcases Nat.lt_or_gt_of_ne hne with hlt | hgt
  · exact hnd1 i j hlt hj (by rw [g1, g2, hurl])
  · exact hnd1 j i hgt hi (by rw [g1, g2, hurl])

/-- C1: on an instance built by `NewRoundRobin`, with `P` the sum over the
entries of `weight / weightGcd`, every call of `GetServer` returns the URL of
the entry at the index it leaves, and among the `K * P` calls that follow any
number `a` of earlier calls (none included) exactly `K * weight_i / weightGcd`
return the entry at position `i`; the keys of a map being distinct, that is the
number of these calls that return the URL of entry `i`. -/
theorem weighted_frequency (m : List (URL × Int)) (r : RoundRobin)
    (hnew : NewRoundRobin m = Run.done (some r, none)) (K a fuel : Nat)
    (hfuel : r.servers.length ≤ fuel) :
    ∃ t, GetServerN fuel (a + K * period r) r = Run.done t ∧
      (t.drop a).length = K * period r ∧
      (∀ x ∈ t, ∃ srv, 0 ≤ x.2.index ∧ r.servers.get? x.2.index.toNat = some srv ∧
        srv.url = x.1) ∧
      ∀ (i : Nat) (srv : server), r.servers.get? i = some srv →
        ((((t.drop a).filter
            (fun x => decide (x.2.index = (i : Int) ∧ x.1 = srv.url))).length : Nat) : Int) =
          (K : Int) * srv.weight / r.weightGcd ∧
        ((m.map Prod.fst).Nodup →
          ((((t.drop a).filter (fun x => decide (x.1 = srv.url))).length : Nat) : Int) =
            (K : Int) * srv.weight / r.weightGcd) := by
  obtain ⟨_, hb, hr, hsrvs⟩ := NewRoundRobin_built hnew
  obtain ⟨b, hlen, hcalls⟩ := calls_window hb hr K a fuel hfuel
  refine ⟨_, hcalls, ?_, ?_, ?_⟩
  · rw [List.drop_append_of_le_length (by simp [hlen]), List.drop_of_length_le (by simp [hlen])]
    simp [length_hits_cycles hb]
  · intro x hx
    have hq : ∃ q, hit r q = true ∧ x = outcome r q := by
      rcases List.mem_append.1 hx with hx | hx
      · obtain ⟨q, hq, rfl⟩ := List.mem_map.1 hx
        exact ⟨q, (mem_hitsFrom hq).2.2, rfl⟩
      · obtain ⟨q, hq, rfl⟩ := List.mem_map.1 hx
        exact ⟨q, (mem_hitsFrom hq).2.2, rfl⟩
    obtain ⟨q, hq, rfl⟩ := hq
    obtain ⟨srv, _, hget, hurl, _, _, hidx, _, _⟩ := outcome_hit hb q hq
    exact ⟨srv, hidx, hget, hurl⟩
  · intro i srv hsrv
    have hi : i < r.servers.length := by
      by_contra hc
      rw [List.get?_eq_none.2 (by omega)] at hsrv
      cases hsrv
    have hw : weightAt r i = srv.weight := by simp only [weightAt, hsrv]
    have hu : urlAt r i = srv.url := by simp only [urlAt, hsrv]
    have hval : ((K * (weightAt r i / r.weightGcd).toNat : Nat) : Int) =
        (K : Int) * srv.weight / r.weightGcd := by
      obtain ⟨h0, _, hd⟩ := hb.weightAt_bounds i
      rw [hw] at h0 hd ⊢
      rw [Int.mul_ediv_assoc _ hd, Nat.cast_mul,
        Int.toNat_of_nonneg (Int.ediv_nonneg h0 hb.gcd_pos.le)]
    constructor
    · rw [List.drop_append_of_le_length (by simp [hlen]), List.drop_of_length_le (by simp [hlen]),
        List.nil_append, ← List.countP_eq_length_filter, List.countP_map]
      have hcongr : List.countP
          ((fun x : URL × RoundRobin => decide (x.2.index = (i : Int) ∧ x.1 = srv.url)) ∘
            outcome r) (hitsFrom r b (K * (r.servers.length * sweeps r))) =
          List.countP (fun q => decide (q % r.servers.length = i))
            (hitsFrom r b (K * (r.servers.length * sweeps r))) := by
        apply List.countP_congr
        intro q _
        simp only [Function.comp, outcome, stateAt, Nat.cast_inj, decide_eq_true_eq]
        constructor
        · exact fun h => h.1
        · intro h
          exact ⟨h, by rw [h, hu]⟩
      rw [hcongr, countP_cycles hb i hi K b, hval]
    · intro hnodup
      have hnd : (r.servers.map (fun s => s.url)).Nodup := by
        rw [hsrvs, List.map_map]
        exact hnodup
      rw [List.drop_append_of_le_length (by simp [hlen]), List.drop_of_length_le (by simp [hlen]),
        List.nil_append, ← List.countP_eq_length_filter, List.countP_map]
      have hcongr : List.countP
          ((fun x : URL × RoundRobin => decide (x.1 = srv.url)) ∘ outcome r)
            (hitsFrom r b (K * (r.servers.length * sweeps r))) =
          List.countP (fun q => decide (q % r.servers.length = i))
            (hitsFrom r b (K * (r.servers.length * sweeps r))) := by
        apply List.countP_congr
        intro q _
        simp only [Function.comp, outcome, decide_eq_true_eq]
        constructor
        · intro h
          obtain ⟨s1, hs1, _⟩ := get?_mod hb q
          have hu1 : urlAt r (q % r.servers.length) = s1.url := by simp only [urlAt, hs1]
          exact url_position_inj hnd hs1 hsrv (by rw [← hu1, h])
        · intro h
          rw [h, hu]
      rw [hcongr, countP_cycles hb i hi K b, hval]
theorem weighted_frequency_witness :
    NewRoundRobin [(url1, 1), (url2, 2)] =
      Run.done (some ⟨[⟨url1, 1⟩, ⟨url2, 2⟩], -1, 0, 2, 1⟩, none) ∧
    (⟨[⟨url1, 1⟩, ⟨url2, 2⟩], -1, 0, 2, 1⟩ : RoundRobin).servers.length ≤ 2 ∧
    (∃ t, GetServerN 2 6 ⟨[⟨url1, 1⟩, ⟨url2, 2⟩], -1, 0, 2, 1⟩ = Run.done t ∧
      t.map Prod.fst = [url2, url1, url2, url2, url1, url2]) ∧
    ∃ t, GetServerN 2 (0 + 2 * period ⟨[⟨url1, 1⟩, ⟨url2, 2⟩], -1, 0, 2, 1⟩)
        ⟨[⟨url1, 1⟩, ⟨url2, 2⟩], -1, 0, 2, 1⟩ = Run.done t ∧
      (t.drop 0).length = 2 * period ⟨[⟨url1, 1⟩, ⟨url2, 2⟩], -1, 0, 2, 1⟩ ∧
      (∀ x ∈ t, ∃ srv, 0 ≤ x.2.index ∧
        (⟨[⟨url1, 1⟩, ⟨url2, 2⟩], -1, 0, 2, 1⟩ : RoundRobin).servers.get? x.2.index.toNat =
          some srv ∧
        srv.url = x.1) ∧
      ∀ (i : Nat) (srv : server),
        (⟨[⟨url1, 1⟩, ⟨url2, 2⟩], -1, 0, 2, 1⟩ : RoundRobin).servers.get? i = some srv →
        ((((t.drop 0).filter
            (fun x => decide (x.2.index = (i : Int) ∧ x.1 = srv.url))).length : Nat) : Int) =
          ((2 : Nat) : Int) * srv.weight /
            (⟨[⟨url1, 1⟩, ⟨url2, 2⟩], -1, 0, 2, 1⟩ : RoundRobin).weightGcd ∧
        (([(url1, (1 : Int)), (url2, 2)].map Prod.fst).Nodup →
          ((((t.drop 0).filter (fun x => decide (x.1 = srv.url))).length : Nat) : Int) =
            ((2 : Nat) : Int) * srv.weight /
              (⟨[⟨url1, 1⟩, ⟨url2, 2⟩], -1, 0, 2, 1⟩ : RoundRobin).weightGcd) :=
  ⟨by decide, by decide, ⟨_, rfl, by decide⟩,
    weighted_frequency [(url1, 1), (url2, 2)] ⟨[⟨url1, 1⟩, ⟨url2, 2⟩], -1, 0, 2, 1⟩
      (by decide) 2 0 2 (by decide)⟩

/-- When every cell is a hit, each call takes one iteration and the calls end at
consecutive cells. -/
theorem calls_all_hit {r : RoundRobin} (h : Built r) (hall : ∀ q, hit r q = true)
    (fuel : Nat) (hfuel : 1 ≤ fuel) :
    ∀ (n p : Nat), GetServerN fuel n (before r p) =
      Run.done ((List.range' p n).map (outcome r)) := by
  obtain ⟨f, rfl⟩ : ∃ f, fuel = f + 1 := ⟨fuel - 1, by omega⟩
  intro n
  induction n with
  | zero => intro p; rfl
  | succ n ih =>
    intro p
    have hstep : GetServerLoop (f + 1) (before r p) = Run.done (outcome r p) := by
      rw [GetServerLoop_before h, if_pos (hall p)]
    have hnext := ih (p + 1)
    have : before r (p + 1) = stateAt r p := rfl
    rw [this] at hnext
    simp only [GetServerN, GetServer, hstep, outcome, List.range'_succ, List.map_cons]
    rw [hnext]

theorem get?_map_range {α : Type} (f : Nat → α) (n k : Nat) (x : α)
    (hx : ((List.range n).map f).get? k = some x) : k < n ∧ x = f k := by
  have hk : k < n := by
    by_contra hc
    rw [List.get?_eq_none.2 (by simp; omega)] at hx
    cases hx
  refine ⟨hk, ?_⟩
  rw [List.get?_eq_getElem?, List.getElem?_map, List.getElem?_range hk] at hx
  exact (Option.some.inj hx).symm

/-- C9: on a map of `N >= 1` entries that all have the same positive weight,
`NewRoundRobin` succeeds and the calls of `GetServer`, one loop iteration each,
return the entries in the order of the server list, over and over: call number
`k + 1` returns the entry at position `k mod N`.  With two entries, two
consecutive calls return different positions, and different URLs when the two
keys are different. -/
theorem equal_weights_round_robin (m : List (URL × Int)) (w : Int) (hne : m ≠ [])
    (hw : 0 < w) (hall : ∀ e ∈ m, e.2 = w) (n fuel : Nat) (hfuel : 1 ≤ fuel) :
    ∃ r t, NewRoundRobin m = Run.done (some r, none) ∧ GetServerN fuel n r = Run.done t ∧
      t.length = n ∧
      (∀ k x, t.get? k = some x →
        x.2.index = ((k % m.length : Nat) : Int) ∧ m.get? (k % m.length) = some (x.1, w)) ∧
      (m.length = 2 → ∀ k x y, t.get? k = some x → t.get? (k + 1) = some y →
        x.2.index ≠ y.2.index ∧ ((m.map Prod.fst).Nodup → x.1 ≠ y.1)) := by
  have hwmem : w ∈ m.map Prod.snd := by
    obtain ⟨e, he⟩ := List.exists_mem_of_ne_nil m hne
    exact List.mem_map.2 ⟨e, he, hall e he⟩
  have hweights : ∀ x ∈ m.map Prod.snd, x = w := by
    intro x hx
    obtain ⟨e, he, rfl⟩ := List.mem_map.1 hx
    exact hall e he
  rcases NewRoundRobin_cases m with ⟨h0, _⟩ | ⟨_, u, w1, _, _, hm, _, hw1, _, _⟩ | ⟨_, hz, _⟩ |
    ⟨_, M, g, hmax, hgcd, _, _, hnew⟩ | ⟨⟨_, w1, _, hm, _, hw1⟩, _⟩
  · exact absurd h0 hne
  · have := hall (u, w1) (by rw [hm]; simp)
    simp only at this
    omega
  · have := hz _ (List.mem_map.1 hwmem).choose_spec.1
    have := hall _ (List.mem_map.1 hwmem).choose_spec.1
    omega
  · have hM : M = w := hweights M hmax.1
    have hg : g = w := by
      apply isGcdOf_unique hgcd
      refine ⟨hw.le, fun d => ⟨fun hd x hx => ?_, fun hd => hd w hwmem⟩⟩
      rw [hweights x hx]; exact hd
    rw [hM, hg] at hnew
    obtain ⟨_, hb, hr, hsrv⟩ := NewRoundRobin_built hnew
    have hlen : (fresh m w w).servers.length = m.length := by simp [fresh]
    have hsweeps : sweeps (fresh m w w) = 1 := by
      simp [sweeps, fresh, Int.ediv_self (ne_of_gt hw)]
    have hentry : ∀ j e, m.get? j = some e →
        weightAt (fresh m w w) j = w ∧ urlAt (fresh m w w) j = e.1 ∧ e = (e.1, w) := by
      intro j e he
      have h1 : (fresh m w w).servers.get? j = some (entry e) := by
        rw [List.get?_eq_getElem?] at he ⊢
        simp only [fresh, List.getElem?_map, he, Option.map_some']
      have h2 : e.2 = w := hall e (List.get?_mem he)
      refine ⟨?_, ?_, ?_⟩
      · simp only [weightAt, h1, entry, h2]
      · simp only [urlAt, h1, entry]
      · rw [← h2]
    have hget : ∀ j, j < m.length → ∃ e, m.get? j = some e := fun j hj =>
      ⟨m.get ⟨j, hj⟩, List.get?_eq_get hj⟩
    have hmod : ∀ q, q % m.length < m.length := fun q =>
      Nat.mod_lt _ (List.length_pos.2 hne)
    have hhit : ∀ q, hit (fresh m w w) q = true := by
      intro q
      obtain ⟨e, he⟩ := hget _ (hmod q)
      have hthr : threshold (fresh m w w) q = w := by
        simp only [threshold, hsweeps, Nat.mod_one, Nat.cast_zero, zero_mul, sub_zero]
        rfl
      simp only [hit, hthr, hlen, (hentry _ e he).1, le_refl, decide_True]
    have hcalls := calls_all_hit hb hhit fuel hfuel n 0
    rw [hr, ← List.range_eq_range'] at hcalls
    refine ⟨fresh m w w, _, hnew, hcalls, by simp, ?_, ?_⟩
    · intro k x hx
      obtain ⟨_, rfl⟩ := get?_map_range _ n k x hx
      obtain ⟨e, he⟩ := hget _ (hmod k)
      refine ⟨by simp only [outcome, stateAt, hlen], ?_⟩
      simp only [outcome, hlen, (hentry _ e he).2.1]
      rw [he, ← (hentry _ e he).2.2]
    · intro h2 k x y hx hy
      obtain ⟨_, rfl⟩ := get?_map_range _ n k x hx
      obtain ⟨_, rfl⟩ := get?_map_range _ n (k + 1) y hy
      have hne2 : k % 2 ≠ (k + 1) % 2 := by omega
      refine ⟨?_, fun hnodup => ?_⟩
      · simp only [outcome, stateAt, hlen, h2]
        omega
      · obtain ⟨e, he⟩ := hget _ (hmod k)
        obtain ⟨e1, he1⟩ := hget _ (hmod (k + 1))
        simp only [outcome, hlen, (hentry _ e he).2.1, (hentry _ e1 he1).2.1]
        intro heq
        have hk1 : (m.map Prod.fst).get? (k % m.length) = some e.1 := by
          rw [List.get?_eq_getElem?] at he ⊢
          simp only [List.getElem?_map, he, Option.map_some']
        have hk2 : (m.map Prod.fst).get? ((k + 1) % m.length) = some e.1 := by
          rw [List.get?_eq_getElem?] at he1 ⊢
          simp only [List.getElem?_map, he1, Option.map_some', heq]
        have hnd := List.nodup_iff_get?_ne_get?.1 hnodup
        have hl : (m.map Prod.fst).length = 2 := by simp [h2]
        rw [h2] at hk1 hk2
        rcases Nat.lt_or_gt_of_ne hne2 with hlt | hgt
        · exact hnd _ _ hlt (by omega) (hk1.trans hk2.symm)
        · exact hnd _ _ hgt (by omega) (hk2.trans hk1.symm)
  · have := hall (URL.nil, w1) (by rw [hm]; simp)
    simp only at this
    omega
theorem equal_weights_round_robin_witness :
    [(url1, (1 : Int)), (url2, 1)] ≠ [] ∧ (0 : Int) < 1 ∧
    (∀ e ∈ [(url1, (1 : Int)), (url2, 1)], e.2 = 1) ∧ 1 ≤ 1 ∧
    ∃ r t, NewRoundRobin [(url1, 1), (url2, 1)] = Run.done (some r, none) ∧
      GetServerN 1 6 r = Run.done t ∧ t.length = 6 ∧
      (∀ k x, t.get? k = some x →
        x.2.index = ((k % [(url1, (1 : Int)), (url2, 1)].length : Nat) : Int) ∧
        [(url1, (1 : Int)), (url2, 1)].get? (k % [(url1, (1 : Int)), (url2, 1)].length) =
          some (x.1, 1)) ∧
      ([(url1, (1 : Int)), (url2, 1)].length = 2 → ∀ k x y, t.get? k = some x →
        t.get? (k + 1) = some y →
        x.2.index ≠ y.2.index ∧
          (([(url1, (1 : Int)), (url2, 1)].map Prod.fst).Nodup → x.1 ≠ y.1)) :=
  ⟨by decide, by decide, by decide, by decide,
    equal_weights_round_robin [(url1, 1), (url2, 1)] 1 (by decide) (by decide) (by decide) 6 1
      (by decide)⟩
/-! ## Frame and invariant of `GetServer` -/

theorem advance_frame (r : RoundRobin) :
    (advance r).servers = r.servers ∧ (advance r).maxWeight = r.maxWeight ∧
      (advance r).weightGcd = r.weightGcd := by
  unfold advance
  simp only
  split
  · split <;> exact ⟨rfl, rfl, rfl⟩
  · exact ⟨rfl, rfl, rfl⟩

/-- A call that returns leaves the frozen fields as they were, from any instance. -/
theorem GetServerLoop_frame : ∀ (fuel : Nat) (s : RoundRobin) (u : URL) (s1 : RoundRobin),
    GetServerLoop fuel s = Run.done (u, s1) →
      s1.servers = s.servers ∧ s1.maxWeight = s.maxWeight ∧ s1.weightGcd = s.weightGcd := by
  intro fuel
  induction fuel with
  | zero => intro s u s1 h; cases h
  | succ f ih =>
    intro s u s1 h
    obtain ⟨h1, h2, h3⟩ := advance_frame s
    rw [GetServerLoop] at h
    split at h
    · cases h
    · simp only at h
      split at h
      · cases h
      · split at h
        · cases h
        · split at h
          · injection h with h
            injection h with _ hs
            rw [← hs]
            exact ⟨h1, h2, h3⟩
          · obtain ⟨k1, k2, k3⟩ := ih _ u s1 h
            exact ⟨k1.trans h1, k2.trans h2, k3.trans h3⟩

theorem advance_inv (r : RoundRobin) (hN : 0 < r.servers.length) (hg : 0 ≤ r.weightGcd)
    (h : StateInv r) :
    StateInv (advance r) ∧ 0 ≤ (advance r).index := by
  obtain ⟨⟨hc0, hcM⟩, hidx⟩ := h
  have hNz : (0 : Int) < (r.servers.length : Int) := by exact_mod_cast hN
  have hnn : 0 ≤ r.index + 1 := by
    rcases hidx with h1 | ⟨h1, _⟩ <;> omega
  have hmod : (r.index + 1).tmod (r.servers.length : Int) = (r.index + 1) % (r.servers.length : Int) :=
    Int.tmod_eq_emod hnn hNz.le
  have h0 : 0 ≤ (r.index + 1) % (r.servers.length : Int) := Int.emod_nonneg _ (ne_of_gt hNz)
  have h1 : (r.index + 1) % (r.servers.length : Int) < r.servers.length :=
    Int.emod_lt_of_pos _ hNz
  unfold advance
  simp only [hmod]
  split
  · split
    · refine ⟨⟨⟨by simp only; omega, le_refl _⟩, Or.inr ⟨h0, h1⟩⟩, h0⟩
    · refine ⟨⟨⟨by simp only; omega, by simp only; omega⟩, Or.inr ⟨h0, h1⟩⟩, h0⟩
  · exact ⟨⟨⟨hc0, hcM⟩, Or.inr ⟨h0, h1⟩⟩, h0⟩

/-- A call that returns takes an instance with the invariant to one with the
invariant, whatever the instance, as long as `weightGcd` is not negative. -/
theorem GetServerLoop_inv : ∀ (fuel : Nat) (s : RoundRobin) (u : URL) (s1 : RoundRobin),
    0 ≤ s.weightGcd → StateInv s → GetServerLoop fuel s = Run.done (u, s1) → StateInv s1 := by
  intro fuel
  induction fuel with
  | zero => intro s u s1 _ _ h; cases h
  | succ f ih =>
    intro s u s1 hg hinv h
    rw [GetServerLoop] at h
    split at h
    · cases h
    · rename_i hlen
      obtain ⟨hadv, _⟩ := advance_inv s (Nat.pos_of_ne_zero hlen) hg hinv
      have hg1 : 0 ≤ (advance s).weightGcd := by rw [(advance_frame s).2.2]; exact hg
      simp only at h
      split at h
      · cases h
      · split at h
        · cases h
        · split at h
          · injection h with h
            injection h with _ hs
            rw [← hs]
            exact hadv
          · exact ih _ u s1 hg1 hadv h

theorem reachable_frame {r s : RoundRobin} (hs : Reachable r s) :
    s.servers = r.servers ∧ s.maxWeight = r.maxWeight ∧ s.weightGcd = r.weightGcd := by
  induction hs with
  | init => exact ⟨rfl, rfl, rfl⟩
  | call s fuel u s1 _ hcall ih =>
    obtain ⟨k1, k2, k3⟩ := GetServerLoop_frame fuel s u s1 hcall
    exact ⟨k1.trans ih.1, k2.trans ih.2.1, k3.trans ih.2.2⟩
/-- A call that returns on a reachable instance ends at a hit. -/
theorem reachable_post {r s : RoundRobin} (h : Built r) (hr : before r 0 = r)
    (hs : Reachable r s) (fuel : Nat) (u : URL) (s1 : RoundRobin)
    (hcall : GetServer fuel s = Run.done (u, s1)) :
    ∃ q, hit r q = true ∧ outcome r q = (u, s1) := by
  obtain ⟨q, d, _, hq, hloop⟩ := reachable_call h hr hs
  rw [hloop fuel] at hcall
  by_cases hc : fuel ≤ d
  · rw [if_pos hc] at hcall
    cases hcall
  · rw [if_neg hc] at hcall
    refine ⟨q, hq, ?_⟩
    injection hcall

/-- A reachable instance is the fresh one or the state of a hit. -/
theorem reachable_cases {r s : RoundRobin} (h : Built r) (hr : before r 0 = r)
    (hs : Reachable r s) : s = r ∨ ∃ q, hit r q = true ∧ s = stateAt r q := by
  cases hs with
  | init => exact Or.inl rfl
  | call s0 fuel u _ hs0 hcall =>
    obtain ⟨q, hq, hout⟩ := reachable_post h hr hs0 fuel u s hcall
    exact Or.inr ⟨q, hq, (congrArg Prod.snd hout).symm⟩

/-- The state of a hit: index inside the list, threshold a multiple of
`weightGcd` between `weightGcd` and `maxWeight`, reached by the entry there. -/
theorem stateAt_hit {r : RoundRobin} (h : Built r) (q : Nat) (hq : hit r q = true) :
    (0 ≤ (stateAt r q).index ∧ (stateAt r q).index < (stateAt r q).servers.length) ∧
    (0 < (stateAt r q).currentWeight ∧
      (stateAt r q).weightGcd ∣ (stateAt r q).currentWeight ∧
      (stateAt r q).weightGcd ≤ (stateAt r q).currentWeight ∧
      (stateAt r q).currentWeight ≤ (stateAt r q).maxWeight) ∧
    ∃ srv, (stateAt r q).servers.get? (stateAt r q).index.toNat = some srv ∧
      srv.url = urlAt r (q % r.servers.length) ∧ (stateAt r q).currentWeight ≤ srv.weight := by
  obtain ⟨srv, _, hget, hurl, _, hle, hidx, hlt, _⟩ := outcome_hit h q hq
  obtain ⟨h1, h2, h3⟩ := h.threshold_bounds q
  have hg := h.gcd_pos
  refine ⟨⟨hidx, hlt⟩, ⟨?_, h3, h1, h2⟩, srv, hget, hurl, hle⟩
  show 0 < threshold r q
  omega
/-! ## `prepareRoundRobinServers` by kind of input -/

theorem prepare_negative (m : List (URL × Int)) (hneg : ∃ e ∈ m, e.2 < 0) :
    ∃ u w, (u, w) ∈ m ∧ w < 0 ∧
      ((∃ text, u.String = some text ∧
          prepareRoundRobinServers m = Run.done ([], -1, -1, some (negativeWeightMsg text))) ∨
        (u = URL.nil ∧ prepareRoundRobinServers m = Run.panic)) := by
  obtain ⟨pre, u, w, post, hm, hpre, hw⟩ := exists_first_negative m hneg
  have hlen : m.length ≠ 0 := by rw [hm]; simp
  have hloop := prepareLoop_negative pre u w post [] (-1) (-1) hpre hw
  refine ⟨u, w, by rw [hm]; simp, hw, ?_⟩
  rw [prepareRoundRobinServers, if_neg hlen, hm, hloop]
  cases u with
  | nil => exact Or.inr ⟨rfl, rfl⟩
  | ptr a t => exact Or.inl ⟨t, rfl, rfl⟩

theorem prepare_nonneg (m : List (URL × Int)) (hne : m ≠ []) (hnn : ∀ e ∈ m, 0 ≤ e.2) :
    ∃ M g, IsMaxOf M (m.map Prod.snd) ∧ IsGcdOf g (m.map Prod.snd) ∧
      prepareRoundRobinServers m =
        if M = 0 then Run.done ([], -1, -1, some "All servers have 0 weight")
        else Run.done (m.map entry, M, g, none) := by
  have hlen : m.length ≠ 0 := fun h => hne (List.length_eq_zero.1 h)
  have hinv0 : PrepInv [] [] (-1) (-1) :=
    ⟨rfl, fun _ => ⟨rfl, rfl⟩, fun h => absurd rfl h⟩
  obtain ⟨s1, M, g, ⟨hs, _, hmg⟩, heq⟩ :=
    prepareLoop_nonneg m [] [] (-1) (-1) hnn (by simp) hinv0
  simp only [List.nil_append] at hs hmg
  obtain ⟨hmax, hgcd⟩ := hmg hne
  refine ⟨M, g, hmax, hgcd, ?_⟩
  rw [prepareRoundRobinServers, if_neg hlen, heq, prepareLoop, hs]

theorem isMaxOf_unique {M M1 : Int} {ws ws1 : List Int} (h : IsMaxOf M ws) (h1 : IsMaxOf M1 ws1)
    (hmem : ∀ x, x ∈ ws ↔ x ∈ ws1) : M = M1 := by
  have a := h1.2 M ((hmem M).1 h.1)
  have b := h.2 M1 ((hmem M1).2 h1.1)
  omega

theorem isGcdOf_congr {g : Int} {ws ws1 : List Int} (h : IsGcdOf g ws)
    (hmem : ∀ x, x ∈ ws ↔ x ∈ ws1) : IsGcdOf g ws1 :=
  ⟨h.1, fun d => ⟨fun hd x hx => (h.2 d).1 hd x ((hmem x).2 hx),
    fun hd => (h.2 d).2 fun x hx => hd x ((hmem x).1 hx)⟩⟩
/-! ## One server -/

/-- On a map with one entry of positive weight `NewRoundRobin` succeeds, and
every cell of the instance is a hit at position 0. -/
theorem single_entry_fresh (u : URL) (w : Int) (hw : 0 < w) :
    NewRoundRobin [(u, w)] = Run.done (some (fresh [(u, w)] w w), none) ∧
      Built (fresh [(u, w)] w w) ∧
      (∀ q, hit (fresh [(u, w)] w w) q = true) ∧
      ∀ q, (outcome (fresh [(u, w)] w w) q).1 = u := by
  have h1 : ¬ w < 0 := by omega
  have h2 : (-1 : Int) < w := by omega
  have h3 : w ≠ 0 := by omega
  have hnew : NewRoundRobin [(u, w)] = Run.done (some (fresh [(u, w)] w w), none) := by
    simp [NewRoundRobin, prepareRoundRobinServers, prepareLoop, h1, h2, h3, fresh, entry]
  obtain ⟨_, hb, _, _⟩ := NewRoundRobin_built hnew
  have hsweeps : sweeps (fresh [(u, w)] w w) = 1 := by
    simp [sweeps, fresh, Int.ediv_self h3]
  refine ⟨hnew, hb, fun q => ?_, fun q => ?_⟩
  · have hthr : threshold (fresh [(u, w)] w w) q = w := by
      simp only [threshold, hsweeps, Nat.mod_one, Nat.cast_zero, zero_mul, sub_zero]
      rfl
    simp only [hit, hthr]
    simp [fresh, weightAt, entry, Nat.mod_one]
  · simp [outcome, urlAt, fresh, entry, Nat.mod_one]
/-! ## The schedule repeats cycle after cycle -/

theorem hitsFrom_shift {r : RoundRobin} (h : Built r) : ∀ (m p : Nat),
    hitsFrom r (p + r.servers.length * sweeps r) m =
      (hitsFrom r p m).map (fun q => q + r.servers.length * sweeps r) := by
  intro m
  induction m with
  | zero => intro p; rfl
  | succ m ih =>
    intro p
    rw [hitsFrom_succ, hitsFrom_succ, hit_periodic h,
      show p + r.servers.length * sweeps r + 1 = p + 1 + r.servers.length * sweeps r by omega,
      ih (p + 1)]
    split <;> simp

theorem outcome_periodic {r : RoundRobin} (h : Built r) (q c : Nat) :
    outcome r (q + c * (r.servers.length * sweeps r)) = outcome r q := by
  induction c with
  | zero => simp
  | succ c ih =>
    rw [← ih, show q + (c + 1) * (r.servers.length * sweeps r) =
      q + c * (r.servers.length * sweeps r) + r.servers.length * sweeps r by ring]
    simp only [outcome, stateAt_periodic h, Nat.add_mul_mod_self_left]

theorem hit_periodic_mul {r : RoundRobin} (h : Built r) (q c : Nat) :
    hit r (q + c * (r.servers.length * sweeps r)) = hit r q := by
  induction c with
  | zero => simp
  | succ c ih =>
    rw [← ih, show q + (c + 1) * (r.servers.length * sweeps r) =
      q + c * (r.servers.length * sweeps r) + r.servers.length * sweeps r by ring]
    exact hit_periodic h _

theorem Built.cycle_pos {r : RoundRobin} (h : Built r) : 0 < r.servers.length * sweeps r :=
  Nat.mul_pos h.length_pos h.sweeps_pos

/-- The hits of the first cycle of cells are `period` many, and at least one. -/
theorem length_first_cycle {r : RoundRobin} (h : Built r) :
    (hitsFrom r 0 (r.servers.length * sweeps r)).length = period r ∧ 0 < period r := by
  have hlen := length_hits_cycles h 1 0
  rw [Nat.one_mul, Nat.one_mul] at hlen
  refine ⟨hlen, ?_⟩
  rw [← hlen]
  obtain ⟨d, hd, hhit⟩ := gap_first h
  have hmem : d ∈ hitsFrom r 0 (r.servers.length * sweeps r) := by
    simp only [hitsFrom, List.mem_filter, List.mem_range'_1]
    have := h.sweeps_pos
    have : r.servers.length * 1 ≤ r.servers.length * sweeps r := Nat.mul_le_mul_left _ this
    exact ⟨⟨by omega, by omega⟩, hhit⟩
  exact List.length_pos_of_mem hmem

/-- The hit number `k` of `K` cycles of cells is hit number `k mod period` of
the first cycle, moved on by `k / period` cycles. -/
theorem hits_cycles_getElem {r : RoundRobin} (h : Built r) : ∀ (K k q : Nat),
    (hitsFrom r 0 (K * (r.servers.length * sweeps r)))[k]? = some q →
      ∃ c, (hitsFrom r 0 (r.servers.length * sweeps r))[k % period r]? = some c ∧
        q = c + (k / period r) * (r.servers.length * sweeps r) := by
  obtain ⟨hlen, hP⟩ := length_first_cycle h
  intro K
  induction K with
  | zero =>
    intro k q hq
    simp [hitsFrom_zero] at hq
  | succ K ih =>
    intro k q hq
    have hsplit : (K + 1) * (r.servers.length * sweeps r) =
        r.servers.length * sweeps r + K * (r.servers.length * sweeps r) := by ring
    rw [hsplit, hitsFrom_add, Nat.zero_add] at hq
    have hsh := hitsFrom_shift h (K * (r.servers.length * sweeps r)) 0
    rw [Nat.zero_add] at hsh
    rw [hsh] at hq
    by_cases hk : k < period r
    · rw [List.getElem?_append_left (by rw [hlen]; exact hk)] at hq
      refine ⟨q, by rw [Nat.mod_eq_of_lt hk]; exact hq, ?_⟩
      rw [Nat.div_eq_of_lt hk]
      simp
    · rw [List.getElem?_append_right (by rw [hlen]; omega), hlen, List.getElem?_map] at hq
      cases hq1 : (hitsFrom r 0 (K * (r.servers.length * sweeps r)))[k - period r]? with
      | none => rw [hq1] at hq; cases hq
      | some q1 =>
        rw [hq1] at hq
        obtain ⟨c, hc, hq1c⟩ := ih (k - period r) q1 hq1
        have hk1 : k = (k - period r) + period r := by omega
        have hmod : k % period r = (k - period r) % period r := by
          conv_lhs => rw [hk1]
          exact Nat.add_mod_right _ _
        have hdiv : k / period r = (k - period r) / period r + 1 := by
          conv_lhs => rw [hk1]
          exact Nat.add_div_right _ hP
        refine ⟨c, by rw [hmod]; exact hc, ?_⟩
        have hq2 : q = q1 + r.servers.length * sweeps r := by
          simpa using (Option.some.inj hq).symm
        rw [hq2, hq1c, hdiv]
        ring

/-- The schedule: call number `k + 1` from the fresh instance ends at the hit
number `k mod period` of the first cycle of cells. -/
theorem calls_schedule {r : RoundRobin} (h : Built r) (hr : before r 0 = r) (fuel : Nat)
    (hfuel : r.servers.length ≤ fuel) (n : Nat) :
    ∃ t, GetServerN fuel n r = Run.done t ∧ t.length = n ∧
      ∀ k x, t[k]? = some x →
        ∃ c, (hitsFrom r 0 (r.servers.length * sweeps r))[k % period r]? = some c ∧
          hit r c = true ∧ x = outcome r c := by
  obtain ⟨b, hb, _⟩ := exists_boundary h n
  have hgap : ∃ d, d < fuel ∧ hit r (0 + d) = true := by
    obtain ⟨d, hd, hhit⟩ := gap_first h
    exact ⟨d, by omega, by simpa using hhit⟩
  have hcalls := calls_from h fuel hfuel 0 b hgap
  rw [hb, hr] at hcalls
  refine ⟨_, hcalls, by simp [hb], ?_⟩
  intro k x hx
  rw [List.getElem?_map] at hx
  cases hq : (hitsFrom r 0 b)[k]? with
  | none => rw [hq] at hx; cases hx
  | some q =>
    rw [hq] at hx
    have hx1 : x = outcome r q := by simpa using (Option.some.inj hx).symm
    have hT := h.cycle_pos
    have hble : b ≤ b * (r.servers.length * sweeps r) := Nat.le_mul_of_pos_right _ hT
    have hsplit : b * (r.servers.length * sweeps r) =
        b + (b * (r.servers.length * sweeps r) - b) := by omega
    have hq2 : (hitsFrom r 0 (b * (r.servers.length * sweeps r)))[k]? = some q := by
      have hklt : k < (hitsFrom r 0 b).length := by
        by_contra hc
        rw [List.getElem?_eq_none (by omega)] at hq
        cases hq
      rw [hsplit, hitsFrom_add, List.getElem?_append_left hklt]
      exact hq
    obtain ⟨c, hc, hqc⟩ := hits_cycles_getElem h b k q hq2
    have hchit : hit r c = true := by
      obtain ⟨_, hcmem⟩ := List.getElem?_eq_some.1 hc
      have : c ∈ hitsFrom r 0 (r.servers.length * sweeps r) := by
        rw [← hcmem]; exact List.getElem_mem _
      exact (mem_hitsFrom this).2.2
    refine ⟨c, hc, hchit, ?_⟩
    rw [hx1, hqc, outcome_periodic h]
/-! ## The first cycle of hits is the reference block -/

theorem filter_range_getElem (p : server → Bool) (l : List server) :
    ((List.range l.length).filter (fun j =>
        match l[j]? with
        | some e => p e
        | none => false)).map (fun j => l[j]?) = (l.filter p).map some := by
  induction l using List.reverseRecOn with
  | nil => rfl
  | append_singleton l a ih =>
    rw [List.length_append, List.length_singleton, List.range_succ, List.filter_append,
      List.map_append, List.filter_append, List.map_append]
    have h1 : List.filter (fun j =>
        match (l ++ [a])[j]? with
        | some e => p e
        | none => false) (List.range l.length) =
        List.filter (fun j =>
        match l[j]? with
        | some e => p e
        | none => false) (List.range l.length) := by
      apply List.filter_congr
      intro j hj
      rw [List.getElem?_append_left (List.mem_range.1 hj)]
    rw [h1]
    have h2 : List.map (fun j => (l ++ [a])[j]?) (List.filter (fun j =>
        match l[j]? with
        | some e => p e
        | none => false) (List.range l.length)) =
        List.map (fun j => l[j]?) (List.filter (fun j =>
        match l[j]? with
        | some e => p e
        | none => false) (List.range l.length)) := by
      apply List.map_congr_left
      intro j hj
      rw [List.getElem?_append_left (List.mem_range.1 (List.mem_filter.1 hj).1)]
    rw [h2, ih]
    congr 1
    by_cases hp : p a = true
    · simp [List.filter_cons, hp]
    · simp [List.filter_cons, hp]

/-- The hits of sweep `s`, as entries: those that reach the threshold of the
sweep, in the order of the server list. -/
theorem sweep_entries {r : RoundRobin} (s : Nat) (hs : s < sweeps r) :
    (hitsFrom r (s * r.servers.length) r.servers.length).map
        (fun q => r.servers[q % r.servers.length]?) =
      (r.servers.filter
        (fun e => decide (r.maxWeight - (s : Int) * r.weightGcd ≤ e.weight))).map some := by
  rw [← filter_range_getElem, hitsFrom, List.range'_eq_map_range, List.filter_map, List.map_map]
  have h1 : List.filter (hit r ∘ fun x => s * r.servers.length + x)
      (List.range r.servers.length) =
      List.filter (fun j =>
        match r.servers[j]? with
        | some e => decide (r.maxWeight - (s : Int) * r.weightGcd ≤ e.weight)
        | none => false) (List.range r.servers.length) := by
    apply List.filter_congr
    intro j hj
    have hj1 : j < r.servers.length := List.mem_range.1 hj
    simp only [Function.comp, hit_cell r s j hj1, Nat.mod_eq_of_lt hs, weightAt,
      List.get?_eq_getElem?, List.getElem?_eq_getElem hj1]
  rw [h1]
  apply List.map_congr_left
  intro j hj
  have hj1 : j < r.servers.length := List.mem_range.1 (List.mem_filter.1 hj).1
  simp only [Function.comp, (mul_add_cell r.servers.length s j hj1).1]

/-- The hits of the first `S` sweeps, as entries. -/
theorem sweeps_entries {r : RoundRobin} : ∀ S : Nat, S ≤ sweeps r →
    (hitsFrom r 0 (S * r.servers.length)).map (fun q => r.servers[q % r.servers.length]?) =
      (((List.range S).map (fun s => r.maxWeight - (s : Int) * r.weightGcd)).map
        (fun t => r.servers.filter (fun e => decide (t ≤ e.weight)))).flatten.map some := by
  intro S
  induction S with
  | zero => intro _; simp [hitsFrom_zero]
  | succ S ih =>
    intro hS
    rw [show (S + 1) * r.servers.length = S * r.servers.length + r.servers.length by ring,
      hitsFrom_add, List.map_append, ih (by omega), Nat.zero_add, sweep_entries S (by omega),
      List.range_succ]
    simp

/-- The hits of the first cycle of cells, as entries, are the reference block. -/
theorem first_cycle_entries (r : RoundRobin) :
    (hitsFrom r 0 (r.servers.length * sweeps r)).map (fun q => r.servers[q % r.servers.length]?) =
      (referenceBlock r).map some := by
  rw [Nat.mul_comm, sweeps_entries (sweeps r) (le_refl _)]
  rfl

theorem length_referenceBlock {r : RoundRobin} (h : Built r) :
    (referenceBlock r).length = period r := by
  have := congrArg List.length (first_cycle_entries r)
  simp only [List.length_map] at this
  rw [← this]
  exact (length_first_cycle h).1
/-! ## Iterations of one call -/

/-- The recording loop and the loop of `GetServer` agree: the one returns when
the other does, and the last instance recorded is the one the call leaves. -/
theorem GetServerLoopTrace_agrees : ∀ (fuel : Nat) (s : RoundRobin),
    (∀ u s1, GetServerLoop fuel s = Run.done (u, s1) →
      ∃ tr, GetServerLoopTrace fuel s = Run.done tr ∧ tr.getLast? = some s1) ∧
    (GetServerLoop fuel s = Run.panic → GetServerLoopTrace fuel s = Run.panic) ∧
    (GetServerLoop fuel s = Run.timeout → GetServerLoopTrace fuel s = Run.timeout) := by
  intro fuel
  induction fuel with
  | zero =>
    intro s
    exact ⟨fun u s1 h => (by cases h), fun h => (by cases h), fun _ => rfl⟩
  | succ f ih =>
    intro s
    rw [GetServerLoop, GetServerLoopTrace]
    split
    · exact ⟨fun u s1 h => (by cases h), fun _ => rfl, fun h => (by cases h)⟩
    · simp only
      split
      · exact ⟨fun u s1 h => (by cases h), fun _ => rfl, fun h => (by cases h)⟩
      · split
        · exact ⟨fun u s1 h => (by cases h), fun _ => rfl, fun h => (by cases h)⟩
        · split
          · refine ⟨fun u s1 h => ?_, fun h => (by cases h), fun h => (by cases h)⟩
            injection h with h
            injection h with _ hs
            exact ⟨[advance s], rfl, by rw [← hs]; rfl⟩
          · obtain ⟨h1, h2, h3⟩ := ih (advance s)
            refine ⟨fun u s1 h => ?_, fun h => ?_, fun h => ?_⟩
            · obtain ⟨tr, htr, hlast⟩ := h1 u s1 h
              refine ⟨advance s :: tr, by rw [htr], ?_⟩
              cases tr with
              | nil => cases hlast
              | cons a tr => simpa using hlast
            · rw [h2 h]
            · rw [h3 h]

theorem GetServerLoopTrace_before {r : RoundRobin} (h : Built r) (f p : Nat) :
    GetServerLoopTrace (f + 1) (before r p) =
      if hit r p then Run.done [stateAt r p]
      else
        match GetServerLoopTrace f (before r (p + 1)) with
        | Run.done tr => Run.done (stateAt r p :: tr)
        | Run.panic => Run.panic
        | Run.timeout => Run.timeout := by
  have hN := h.length_pos
  obtain ⟨s, hs, _⟩ := get?_mod h p
  have hadv := advance_before h p
  rw [GetServerLoopTrace, before_servers, if_neg (by omega), hadv]
  have hidx : ¬ ((stateAt r p).index < 0) := by
    simp only [stateAt]; omega
  simp only [hidx, if_false]
  have hget : (stateAt r p).servers.get? (stateAt r p).index.toNat = some s := by
    simpa [stateAt] using hs
  rw [hget]
  simp only [hit, weightAt, hs, ge_iff_le]
  by_cases hc : threshold r p ≤ s.weight
  · simp [hc, stateAt]
  · simp [hc, stateAt, before]

/-- A call from the instance before cell `p` whose first hit is `d` cells on
runs the iterations of the cells `p, ..., p + d`. -/
theorem first_hit_trace {r : RoundRobin} (h : Built r) :
    ∀ (d p : Nat), (∀ e, e < d → hit r (p + e) = false) → hit r (p + d) = true →
      ∀ fuel, d < fuel → GetServerLoopTrace fuel (before r p) =
        Run.done ((List.range' p (d + 1)).map (stateAt r)) := by
  intro d
  induction d with
  | zero =>
    intro p _ hd fuel hfuel
    obtain ⟨f, rfl⟩ : ∃ f, fuel = f + 1 := ⟨fuel - 1, by omega⟩
    rw [Nat.add_zero] at hd
    rw [GetServerLoopTrace_before h, if_pos hd]
    rfl
  | succ d ih =>
    intro p hmin hd fuel hfuel
    obtain ⟨f, rfl⟩ : ∃ f, fuel = f + 1 := ⟨fuel - 1, by omega⟩
    have hp : hit r p = false := hmin 0 (by omega)
    rw [GetServerLoopTrace_before h, hp]
    simp only [Bool.false_eq_true, if_false]
    have hmin1 : ∀ e, e < d → hit r (p + 1 + e) = false := by
      intro e he
      rw [show p + 1 + e = p + (e + 1) by omega]
      exact hmin (e + 1) (by omega)
    have hd1 : hit r (p + 1 + d) = true := by
      rw [show p + 1 + d = p + (d + 1) by omega]; exact hd
    rw [ih (p + 1) hmin1 hd1 f (by omega), List.range'_succ p (d + 1), List.map_cons]

/-- Among at most `N` consecutive cells at most one is at position 0. -/
theorem countP_wrap (N : Nat) : ∀ (m p : Nat), m ≤ N →
    List.countP (fun q => decide (q % N = 0)) (List.range' p m) ≤ 1 := by
  intro m
  induction m with
  | zero => intro p _; simp
  | succ m ih =>
    intro p hm
    rw [List.range'_succ, List.countP_cons]
    by_cases hp : p % N = 0
    · have hzero : List.countP (fun q => decide (q % N = 0)) (List.range' (p + 1) m) = 0 := by
        rw [List.countP_eq_zero]
        intro q hq
        have hq1 := List.mem_range'_1.1 hq
        have hdvd : N ∣ p := Nat.dvd_of_mod_eq_zero hp
        obtain ⟨c, hc⟩ := hdvd
        simp only [decide_eq_true_eq]
        intro hq0
        obtain ⟨c1, hc1⟩ := Nat.dvd_of_mod_eq_zero hq0
        have hlt : c < c1 := by
          by_contra hcc
          have : N * c1 ≤ N * c := Nat.mul_le_mul_left _ (by omega)
          omega
        have : N * (c + 1) ≤ N * c1 := Nat.mul_le_mul_left _ (by omega)
        rw [Nat.mul_add, Nat.mul_one] at this
        omega
      rw [hzero]
      simp [hp]
    · have := ih (p + 1) (by omega)
      simp only [hp, decide_False, Bool.false_eq_true, if_false, Nat.add_zero]
      exact this
/-! ## Frame, invariants -/

/-- C15: a call of `GetServer` that returns, on any instance, leaves the fields
`servers`, `maxWeight` and `weightGcd` as they were before the call; only
`index` and `currentWeight` may differ. -/
theorem getServer_frame (s : RoundRobin) (fuel : Nat) (u : URL) (s1 : RoundRobin)
    (hcall : GetServer fuel s = Run.done (u, s1)) :
    s1.servers = s.servers ∧ s1.maxWeight = s.maxWeight ∧ s1.weightGcd = s.weightGcd :=
  GetServerLoop_frame fuel s u s1 hcall

theorem getServer_frame_witness :
    GetServer 2 ⟨[⟨url1, 1⟩, ⟨url2, 2⟩], -1, 0, 2, 1⟩ =
      Run.done (url2, ⟨[⟨url1, 1⟩, ⟨url2, 2⟩], 1, 2, 2, 1⟩) ∧
    (⟨[⟨url1, 1⟩, ⟨url2, 2⟩], 1, 2, 2, 1⟩ : RoundRobin).servers =
      (⟨[⟨url1, 1⟩, ⟨url2, 2⟩], -1, 0, 2, 1⟩ : RoundRobin).servers ∧
    (⟨[⟨url1, 1⟩, ⟨url2, 2⟩], 1, 2, 2, 1⟩ : RoundRobin).maxWeight =
      (⟨[⟨url1, 1⟩, ⟨url2, 2⟩], -1, 0, 2, 1⟩ : RoundRobin).maxWeight ∧
    (⟨[⟨url1, 1⟩, ⟨url2, 2⟩], 1, 2, 2, 1⟩ : RoundRobin).weightGcd =
      (⟨[⟨url1, 1⟩, ⟨url2, 2⟩], -1, 0, 2, 1⟩ : RoundRobin).weightGcd :=
  ⟨by decide, getServer_frame ⟨[⟨url1, 1⟩, ⟨url2, 2⟩], -1, 0, 2, 1⟩ 2 url2
    ⟨[⟨url1, 1⟩, ⟨url2, 2⟩], 1, 2, 2, 1⟩ (by decide)⟩

/-- C14: on an instance built by `NewRoundRobin`, the predicate
`0 <= currentWeight <= maxWeight and (index = -1 or 0 <= index < len(servers))`
holds of the fresh instance, is kept by every call of `GetServer` that returns
(from any instance whose `weightGcd` is not negative), and so holds of every
reachable instance. -/
theorem state_invariant_between_calls (m : List (URL × Int)) (r : RoundRobin)
    (hnew : NewRoundRobin m = Run.done (some r, none)) :
    StateInv r ∧
    (∀ (s : RoundRobin) (fuel : Nat) (u : URL) (s1 : RoundRobin), 0 ≤ s.weightGcd →
      StateInv s → GetServer fuel s = Run.done (u, s1) → StateInv s1) ∧
    (∀ s, Reachable r s → StateInv s) := by
  obtain ⟨_, hb, hr, _⟩ := NewRoundRobin_built hnew
  have hfresh : StateInv r := by
    rw [← hr]
    exact ⟨⟨le_refl _, hb.max_pos.le⟩, Or.inl rfl⟩
  refine ⟨hfresh, fun s fuel u s1 hg hinv hcall => GetServerLoop_inv fuel s u s1 hg hinv hcall, ?_⟩
  intro s hs
  induction hs with
  | init => exact hfresh
  | call s fuel u s1 hs0 hcall ih =>
    have hg : 0 ≤ s.weightGcd := by
      rw [(reachable_frame hs0).2.2]
      exact hb.gcd_pos.le
    exact GetServerLoop_inv fuel s u s1 hg ih hcall

theorem state_invariant_between_calls_witness :
    NewRoundRobin [(url1, 2), (url2, 0), (url3, 4)] =
      Run.done (some ⟨[⟨url1, 2⟩, ⟨url2, 0⟩, ⟨url3, 4⟩], -1, 0, 4, 2⟩, none) ∧
    (StateInv ⟨[⟨url1, 2⟩, ⟨url2, 0⟩, ⟨url3, 4⟩], -1, 0, 4, 2⟩ ∧
    (∀ (s : RoundRobin) (fuel : Nat) (u : URL) (s1 : RoundRobin), 0 ≤ s.weightGcd →
      StateInv s → GetServer fuel s = Run.done (u, s1) → StateInv s1) ∧
    (∀ s, Reachable ⟨[⟨url1, 2⟩, ⟨url2, 0⟩, ⟨url3, 4⟩], -1, 0, 4, 2⟩ s → StateInv s)) :=
  ⟨by decide, state_invariant_between_calls [(url1, 2), (url2, 0), (url3, 4)]
    ⟨[⟨url1, 2⟩, ⟨url2, 0⟩, ⟨url3, 4⟩], -1, 0, 4, 2⟩ (by decide)⟩

/-- C19: on an instance built by `NewRoundRobin`, after every call of
`GetServer`: `0 <= index < len(servers)`; `currentWeight` is a positive multiple
of `weightGcd` with `weightGcd <= currentWeight <= maxWeight`; the entry at
`index` is the one returned and its weight is at least `currentWeight`.  So a
reachable instance other than the fresh one has neither `index = -1` nor
`currentWeight = 0`. -/
theorem post_call_invariant (m : List (URL × Int)) (r : RoundRobin)
    (hnew : NewRoundRobin m = Run.done (some r, none)) :
    (∀ (s : RoundRobin) (fuel : Nat) (u : URL) (s1 : RoundRobin), Reachable r s →
      GetServer fuel s = Run.done (u, s1) →
      (0 ≤ s1.index ∧ s1.index < s1.servers.length) ∧
      (0 < s1.currentWeight ∧ s1.weightGcd ∣ s1.currentWeight ∧
        s1.weightGcd ≤ s1.currentWeight ∧ s1.currentWeight ≤ s1.maxWeight) ∧
      (∃ srv, s1.servers.get? s1.index.toNat = some srv ∧ srv.url = u ∧
        s1.currentWeight ≤ srv.weight)) ∧
    (∀ s, Reachable r s → s = r ∨ (s.index ≠ -1 ∧ s.currentWeight ≠ 0)) := by
  obtain ⟨_, hb, hr, _⟩ := NewRoundRobin_built hnew
  constructor
  · intro s fuel u s1 hs hcall
    obtain ⟨q, hq, hout⟩ := reachable_post hb hr hs fuel u s1 hcall
    obtain ⟨h1, h2, srv, hget, hurl, hle⟩ := stateAt_hit hb q hq
    have hs1 : s1 = stateAt r q := (congrArg Prod.snd hout).symm
    have hu : u = urlAt r (q % r.servers.length) := (congrArg Prod.fst hout).symm
    rw [hs1, hu]
    exact ⟨h1, h2, srv, hget, hurl, hle⟩
  · intro s hs
    rcases reachable_cases hb hr hs with h0 | ⟨q, hq, rfl⟩
    · exact Or.inl h0
    · obtain ⟨h1, h2, _⟩ := stateAt_hit hb q hq
      exact Or.inr ⟨by omega, by omega⟩

theorem post_call_invariant_witness :
    NewRoundRobin [(url1, 2), (url2, 0), (url3, 4)] =
      Run.done (some ⟨[⟨url1, 2⟩, ⟨url2, 0⟩, ⟨url3, 4⟩], -1, 0, 4, 2⟩, none) ∧
    ((∀ (s : RoundRobin) (fuel : Nat) (u : URL) (s1 : RoundRobin),
      Reachable ⟨[⟨url1, 2⟩, ⟨url2, 0⟩, ⟨url3, 4⟩], -1, 0, 4, 2⟩ s →
      GetServer fuel s = Run.done (u, s1) →
      (0 ≤ s1.index ∧ s1.index < s1.servers.length) ∧
      (0 < s1.currentWeight ∧ s1.weightGcd ∣ s1.currentWeight ∧
        s1.weightGcd ≤ s1.currentWeight ∧ s1.currentWeight ≤ s1.maxWeight) ∧
      (∃ srv, s1.servers.get? s1.index.toNat = some srv ∧ srv.url = u ∧
        s1.currentWeight ≤ srv.weight)) ∧
    (∀ s, Reachable ⟨[⟨url1, 2⟩, ⟨url2, 0⟩, ⟨url3, 4⟩], -1, 0, 4, 2⟩ s →
      s = ⟨[⟨url1, 2⟩, ⟨url2, 0⟩, ⟨url3, 4⟩], -1, 0, 4, 2⟩ ∨
        (s.index ≠ -1 ∧ s.currentWeight ≠ 0))) :=
  ⟨by decide, post_call_invariant [(url1, 2), (url2, 0), (url3, 4)]
    ⟨[⟨url1, 2⟩, ⟨url2, 0⟩, ⟨url3, 4⟩], -1, 0, 4, 2⟩ (by decide)⟩
/-! ## Iteration order, single server -/

/-- C17, as stated, fails on the map `nil: -1, url1: -1`: iterated with the
`nil` key first `prepareRoundRobinServers` panics in `url.String()`, iterated
with `url1` first it returns the negative-weight error naming `url1`. -/
theorem order_dependence_counterexample :
    [(URL.nil, (-1 : Int)), (url1, -1)].Perm [(url1, -1), (URL.nil, -1)] ∧
    prepareRoundRobinServers [(URL.nil, -1), (url1, -1)] = Run.panic ∧
    prepareRoundRobinServers [(url1, -1), (URL.nil, -1)] =
      Run.done ([], -1, -1,
        some "Weight of server 'http://127.0.0.1:8080' is less than 0") := by
  decide

/-- C17, amended: for two iteration orders of one map, `prepareRoundRobinServers`
fails with the empty-map error for both; or the map has a negative weight and
each order stops at a negative entry, with the negative-weight error naming its
key or, when that key is `nil`, with a panic, and both orders return the
negative-weight error when no negative entry has the key `nil`; or it fails
with the all-zero error for both; or it succeeds for both with the same
`maxWeight` and the same `weightGcd`, which is the greatest common divisor of
all the weights wherever a zero weight stands in the order. -/
theorem order_independence (m1 m2 : List (URL × Int)) (hperm : m1.Perm m2) :
    (prepareRoundRobinServers m1 =
        Run.done ([], -1, -1, some "Must specify at least one server") ∧
      prepareRoundRobinServers m2 =
        Run.done ([], -1, -1, some "Must specify at least one server")) ∨
    ((∃ u1 w1, (u1, w1) ∈ m1 ∧ w1 < 0 ∧
        ((∃ text, u1.String = some text ∧ prepareRoundRobinServers m1 =
            Run.done ([], -1, -1, some ("Weight of server '" ++ text ++ "' is less than 0"))) ∨
          (u1 = URL.nil ∧ prepareRoundRobinServers m1 = Run.panic))) ∧
      (∃ u2 w2, (u2, w2) ∈ m1 ∧ w2 < 0 ∧
        ((∃ text, u2.String = some text ∧ prepareRoundRobinServers m2 =
            Run.done ([], -1, -1, some ("Weight of server '" ++ text ++ "' is less than 0"))) ∨
          (u2 = URL.nil ∧ prepareRoundRobinServers m2 = Run.panic))) ∧
      ((∀ e ∈ m1, e.2 < 0 → e.1 ≠ URL.nil) →
        ∃ text1 text2,
          prepareRoundRobinServers m1 =
            Run.done ([], -1, -1,
              some ("Weight of server '" ++ text1 ++ "' is less than 0")) ∧
          prepareRoundRobinServers m2 =
            Run.done ([], -1, -1,
              some ("Weight of server '" ++ text2 ++ "' is less than 0")))) ∨
    (prepareRoundRobinServers m1 = Run.done ([], -1, -1, some "All servers have 0 weight") ∧
      prepareRoundRobinServers m2 = Run.done ([], -1, -1, some "All servers have 0 weight")) ∨
    (∃ servers1 servers2 M g,
      prepareRoundRobinServers m1 = Run.done (servers1, M, g, none) ∧
      prepareRoundRobinServers m2 = Run.done (servers2, M, g, none) ∧
      (0 ≤ g ∧ ∀ d : Int, d ∣ g ↔ ∀ w ∈ m1.map Prod.snd, d ∣ w)) := by
  have hmem : ∀ e, e ∈ m1 ↔ e ∈ m2 := fun e => hperm.mem_iff
  have hmemw : ∀ x, x ∈ m1.map Prod.snd ↔ x ∈ m2.map Prod.snd :=
    fun x => (hperm.map Prod.snd).mem_iff
  by_cases hnil : m1 = []
  · have hnil2 : m2 = [] := by
      subst hnil
      exact hperm.symm.eq_nil
    subst hnil hnil2
    exact Or.inl ⟨rfl, rfl⟩
  have hnil2 : m2 ≠ [] := fun h => hnil (by subst h; exact hperm.eq_nil)
  by_cases hneg : ∃ e ∈ m1, e.2 < 0
  · have hneg2 : ∃ e ∈ m2, e.2 < 0 := by
      obtain ⟨e, he, hlt⟩ := hneg
      exact ⟨e, (hmem e).1 he, hlt⟩
    obtain ⟨u1, w1, hu1, hw1, h1⟩ := prepare_negative m1 hneg
    obtain ⟨u2, w2, hu2, hw2, h2⟩ := prepare_negative m2 hneg2
    have hu2' : (u2, w2) ∈ m1 := (hmem _).2 hu2
    refine Or.inr (Or.inl ⟨⟨u1, w1, hu1, hw1, h1⟩, ⟨u2, w2, hu2', hw2, h2⟩, ?_⟩)
    intro hnonnil
    rcases h1 with ⟨t1, _, hp1⟩ | ⟨hn1, _⟩
    · rcases h2 with ⟨t2, _, hp2⟩ | ⟨hn2, _⟩
      · exact ⟨t1, t2, hp1, hp2⟩
      · exact absurd hn2 (hnonnil (u2, w2) hu2' hw2)
    · exact absurd hn1 (hnonnil (u1, w1) hu1 hw1)
  · have hnn : ∀ e ∈ m1, 0 ≤ e.2 := by
      intro e he
      by_contra hc
      exact hneg ⟨e, he, not_le.1 hc⟩
    have hnn2 : ∀ e ∈ m2, 0 ≤ e.2 := fun e he => hnn e ((hmem e).2 he)
    obtain ⟨M1, g1, hmax1, hgcd1, h1⟩ := prepare_nonneg m1 hnil hnn
    obtain ⟨M2, g2, hmax2, hgcd2, h2⟩ := prepare_nonneg m2 hnil2 hnn2
    have hM : M1 = M2 := isMaxOf_unique hmax1 hmax2 hmemw
    have hg : g1 = g2 := isGcdOf_unique (isGcdOf_congr hgcd1 hmemw) hgcd2
    subst hM hg
    by_cases hz : M1 = 0
    · rw [if_pos hz] at h1 h2
      exact Or.inr (Or.inr (Or.inl ⟨h1, h2⟩))
    · rw [if_neg hz] at h1 h2
      exact Or.inr (Or.inr (Or.inr ⟨_, _, M1, g1, h1, h2, hgcd1⟩))

theorem order_independence_witness :
    [(url1, (0 : Int)), (url2, 6), (url3, 4)].Perm [(url3, 4), (url2, 6), (url1, 0)] ∧
    ((prepareRoundRobinServers [(url1, 0), (url2, 6), (url3, 4)] =
        Run.done ([], -1, -1, some "Must specify at least one server") ∧
      prepareRoundRobinServers [(url3, 4), (url2, 6), (url1, 0)] =
        Run.done ([], -1, -1, some "Must specify at least one server")) ∨
    ((∃ u1 w1, (u1, w1) ∈ [(url1, (0 : Int)), (url2, 6), (url3, 4)] ∧ w1 < 0 ∧
        ((∃ text, u1.String = some text ∧
            prepareRoundRobinServers [(url1, 0), (url2, 6), (url3, 4)] =
            Run.done ([], -1, -1, some ("Weight of server '" ++ text ++ "' is less than 0"))) ∨
          (u1 = URL.nil ∧
            prepareRoundRobinServers [(url1, 0), (url2, 6), (url3, 4)] = Run.panic))) ∧
      (∃ u2 w2, (u2, w2) ∈ [(url1, (0 : Int)), (url2, 6), (url3, 4)] ∧ w2 < 0 ∧
        ((∃ text, u2.String = some text ∧
            prepareRoundRobinServers [(url3, 4), (url2, 6), (url1, 0)] =
            Run.done ([], -1, -1, some ("Weight of server '" ++ text ++ "' is less than 0"))) ∨
          (u2 = URL.nil ∧
            prepareRoundRobinServers [(url3, 4), (url2, 6), (url1, 0)] = Run.panic))) ∧
      ((∀ e ∈ [(url1, (0 : Int)), (url2, 6), (url3, 4)], e.2 < 0 → e.1 ≠ URL.nil) →
        ∃ text1 text2,
          prepareRoundRobinServers [(url1, 0), (url2, 6), (url3, 4)] =
            Run.done ([], -1, -1,
              some ("Weight of server '" ++ text1 ++ "' is less than 0")) ∧
          prepareRoundRobinServers [(url3, 4), (url2, 6), (url1, 0)] =
            Run.done ([], -1, -1,
              some ("Weight of server '" ++ text2 ++ "' is less than 0")))) ∨
    (prepareRoundRobinServers [(url1, 0), (url2, 6), (url3, 4)] =
        Run.done ([], -1, -1, some "All servers have 0 weight") ∧
      prepareRoundRobinServers [(url3, 4), (url2, 6), (url1, 0)] =
        Run.done ([], -1, -1, some "All servers have 0 weight")) ∨
    (∃ servers1 servers2 M g,
      prepareRoundRobinServers [(url1, 0), (url2, 6), (url3, 4)] =
        Run.done (servers1, M, g, none) ∧
      prepareRoundRobinServers [(url3, 4), (url2, 6), (url1, 0)] =
        Run.done (servers2, M, g, none) ∧
      (0 ≤ g ∧ ∀ d : Int, d ∣ g ↔
        ∀ w ∈ [(url1, (0 : Int)), (url2, 6), (url3, 4)].map Prod.snd, d ∣ w))) :=
  ⟨by decide, order_independence [(url1, 0), (url2, 6), (url3, 4)]
    [(url3, 4), (url2, 6), (url1, 0)] (by decide)⟩
/-- C11: `SingleServer.GetServer` returns the stored URL for every request; a
`RoundRobin` built from a map with one entry of positive weight returns that
entry's URL on every call of `GetServer`; so on every sequence of requests the
two backends return the same URLs. -/
theorem single_server_identity (u : URL) (w : Int) (hw : 0 < w) (reqs : List Request)
    (fuel : Nat) (hfuel : 1 ≤ fuel) :
    (∀ (s : SingleServer) (req : Request), s.GetServer req = s.server) ∧
    ∃ r t, NewRoundRobin [(u, w)] = Run.done (some r, none) ∧
      GetServerN fuel reqs.length r = Run.done t ∧
      (∀ x ∈ t, x.1 = u) ∧
      t.map Prod.fst = reqs.map (SingleServer.GetServer ⟨u⟩) := by
  obtain ⟨hnew, hb, hhit, hurl⟩ := single_entry_fresh u w hw
  have hcalls := calls_all_hit hb hhit fuel hfuel reqs.length 0
  have hr : before (fresh [(u, w)] w w) 0 = fresh [(u, w)] w w := rfl
  rw [hr] at hcalls
  refine ⟨fun _ _ => rfl, fresh [(u, w)] w w, _, hnew, hcalls, ?_, ?_⟩
  · intro x hx
    obtain ⟨q, _, rfl⟩ := List.mem_map.1 hx
    exact hurl q
  · apply List.ext_getElem
    · simp
    · intro i h1 h2
      simp only [List.getElem_map, hurl, SingleServer.GetServer]

theorem single_server_identity_witness :
    (0 : Int) < 1 ∧ 1 ≤ 1 ∧
    ((∀ (s : SingleServer) (req : Request), s.GetServer req = s.server) ∧
    ∃ r t, NewRoundRobin [(url1, 1)] = Run.done (some r, none) ∧
      GetServerN 1 [(⟨"GET", "/test"⟩ : Request), ⟨"GET", "/other"⟩].length r = Run.done t ∧
      (∀ x ∈ t, x.1 = url1) ∧
      t.map Prod.fst =
        [(⟨"GET", "/test"⟩ : Request), ⟨"GET", "/other"⟩].map (SingleServer.GetServer ⟨url1⟩)) :=
  ⟨by decide, by decide,
    single_server_identity url1 1 (by decide) [⟨"GET", "/test"⟩, ⟨"GET", "/other"⟩] 1
      (by decide)⟩
/-! ## Cycles -/

/-- C20: on an instance built by `NewRoundRobin`, with `P` the sum over the
entries of `weight / weightGcd`, for every `k >= 1` call number `k + P` returns
the same URL and leaves the same instance (so the same `index` and
`currentWeight`, and the same entry) as call number `k`. -/
theorem state_periodicity (m : List (URL × Int)) (r : RoundRobin)
    (hnew : NewRoundRobin m = Run.done (some r, none)) (k : Nat) (hk : 1 ≤ k) (fuel : Nat)
    (hfuel : r.servers.length ≤ fuel) :
    ∃ t1 t2 x, GetServerN fuel k r = Run.done t1 ∧
      GetServerN fuel (k + period r) r = Run.done t2 ∧
      t1.getLast? = some x ∧ t2.getLast? = some x := by
  obtain ⟨_, hb, hr, _⟩ := NewRoundRobin_built hnew
  obtain ⟨_, hP⟩ := length_first_cycle hb
  obtain ⟨t1, ht1, hl1, hs1⟩ := calls_schedule hb hr fuel hfuel k
  obtain ⟨t2, ht2, hl2, hs2⟩ := calls_schedule hb hr fuel hfuel (k + period r)
  have h1 : k - 1 < t1.length := by omega
  have h2 : k + period r - 1 < t2.length := by omega
  obtain ⟨c1, hc1, _, hx1⟩ := hs1 (k - 1) t1[k - 1] (List.getElem?_eq_getElem h1)
  obtain ⟨c2, hc2, _, hx2⟩ := hs2 (k + period r - 1) t2[k + period r - 1]
    (List.getElem?_eq_getElem h2)
  have hmod : (k + period r - 1) % period r = (k - 1) % period r := by
    rw [show k + period r - 1 = k - 1 + period r by omega]
    exact Nat.add_mod_right _ _
  rw [hmod, hc1] at hc2
  have hc : c1 = c2 := Option.some.inj hc2
  refine ⟨t1, t2, t1[k - 1], ht1, ht2, ?_, ?_⟩
  · rw [List.getLast?_eq_getElem?, hl1, List.getElem?_eq_getElem h1]
  · rw [List.getLast?_eq_getElem?, hl2, List.getElem?_eq_getElem h2, hx1, hx2, hc]

theorem state_periodicity_witness :
    NewRoundRobin [(url1, 1), (url2, 2)] =
      Run.done (some ⟨[⟨url1, 1⟩, ⟨url2, 2⟩], -1, 0, 2, 1⟩, none) ∧
    1 ≤ 2 ∧ (⟨[⟨url1, 1⟩, ⟨url2, 2⟩], -1, 0, 2, 1⟩ : RoundRobin).servers.length ≤ 2 ∧
    ∃ t1 t2 x, GetServerN 2 2 ⟨[⟨url1, 1⟩, ⟨url2, 2⟩], -1, 0, 2, 1⟩ = Run.done t1 ∧
      GetServerN 2 (2 + period ⟨[⟨url1, 1⟩, ⟨url2, 2⟩], -1, 0, 2, 1⟩)
        ⟨[⟨url1, 1⟩, ⟨url2, 2⟩], -1, 0, 2, 1⟩ = Run.done t2 ∧
      t1.getLast? = some x ∧ t2.getLast? = some x :=
  ⟨by decide, by decide, by decide,
    state_periodicity [(url1, 1), (url2, 2)] ⟨[⟨url1, 1⟩, ⟨url2, 2⟩], -1, 0, 2, 1⟩
      (by decide) 2 (by decide) 2 (by decide)⟩

/-- C16, as stated, fails on the fresh instance: with weights 1 and 2 the cycle
is 3 calls long, and the 3 calls from `index = -1`, `currentWeight = 0` leave
`index = 1`, `currentWeight = 1`. -/
theorem cycle_from_fresh_counterexample :
    NewRoundRobin [(url1, 1), (url2, 2)] =
      Run.done (some ⟨[⟨url1, 1⟩, ⟨url2, 2⟩], -1, 0, 2, 1⟩, none) ∧
    period ⟨[⟨url1, 1⟩, ⟨url2, 2⟩], -1, 0, 2, 1⟩ = 3 ∧
    GetServerN 2 (period ⟨[⟨url1, 1⟩, ⟨url2, 2⟩], -1, 0, 2, 1⟩)
        ⟨[⟨url1, 1⟩, ⟨url2, 2⟩], -1, 0, 2, 1⟩ =
      Run.done [(url2, ⟨[⟨url1, 1⟩, ⟨url2, 2⟩], 1, 2, 2, 1⟩),
        (url1, ⟨[⟨url1, 1⟩, ⟨url2, 2⟩], 0, 1, 2, 1⟩),
        (url2, ⟨[⟨url1, 1⟩, ⟨url2, 2⟩], 1, 1, 2, 1⟩)] ∧
    ((⟨[⟨url1, 1⟩, ⟨url2, 2⟩], 1, 1, 2, 1⟩ : RoundRobin).index,
        (⟨[⟨url1, 1⟩, ⟨url2, 2⟩], 1, 1, 2, 1⟩ : RoundRobin).currentWeight) ≠
      ((⟨[⟨url1, 1⟩, ⟨url2, 2⟩], -1, 0, 2, 1⟩ : RoundRobin).index,
        (⟨[⟨url1, 1⟩, ⟨url2, 2⟩], -1, 0, 2, 1⟩ : RoundRobin).currentWeight) := by
  decide

/-- C16, amended: on an instance built by `NewRoundRobin`, from every instance
that a call of `GetServer` has left, one full cycle of calls (the sum of
`weight / weightGcd` of them) leaves the instance, and so the pair
`(index, currentWeight)`, as it was at the start of the cycle. -/
theorem cycle_returns_state (m : List (URL × Int)) (r : RoundRobin)
    (hnew : NewRoundRobin m = Run.done (some r, none)) (s0 : RoundRobin) (fuel0 : Nat) (u : URL)
    (s : RoundRobin) (hs0 : Reachable r s0) (hcall : GetServer fuel0 s0 = Run.done (u, s))
    (fuel : Nat) (hfuel : r.servers.length ≤ fuel) :
    ∃ t x, GetServerN fuel (period r) s = Run.done t ∧ t.getLast? = some x ∧
      x.2 = s ∧ x.2.index = s.index ∧ x.2.currentWeight = s.currentWeight := by
  obtain ⟨_, hb, hr, _⟩ := NewRoundRobin_built hnew
  obtain ⟨q, hq, hout⟩ := reachable_post hb hr hs0 fuel0 u s hcall
  have hs : s = before r (q + 1) := (congrArg Prod.snd hout).symm
  have hgap : ∃ d, d < fuel ∧ hit r (q + 1 + d) = true := by
    obtain ⟨d, hd, hhit⟩ := gap_next hb q hq
    exact ⟨d, by omega, hhit⟩
  have hcalls := calls_from hb fuel hfuel (q + 1) (r.servers.length * sweeps r) hgap
  have hlen := length_hits_cycles hb 1 (q + 1)
  rw [Nat.one_mul, Nat.one_mul] at hlen
  rw [hlen, ← hs] at hcalls
  have hT := hb.cycle_pos
  obtain ⟨T1, hT1⟩ : ∃ T1, r.servers.length * sweeps r = T1 + 1 :=
    ⟨r.servers.length * sweeps r - 1, by omega⟩
  have hlasthit : hit r (q + 1 + T1) = true := by
    rw [show q + 1 + T1 = q + r.servers.length * sweeps r by omega, hit_periodic hb]
    exact hq
  have hlast : (hitsFrom r (q + 1) (r.servers.length * sweeps r)).getLast? =
      some (q + r.servers.length * sweeps r) := by
    rw [hT1, hitsFrom_add, hitsFrom_succ, if_pos hlasthit, hitsFrom_zero,
      List.getLast?_concat]
    congr 1
    omega
  have hper := outcome_periodic hb q 1
  rw [Nat.one_mul] at hper
  refine ⟨_, outcome r q, hcalls, ?_, ?_, ?_, ?_⟩
  · rw [List.getLast?_map, hlast, Option.map_some', hper]
  · rw [hout]
  · rw [hout]
  · rw [hout]

theorem cycle_returns_state_witness :
    NewRoundRobin [(url1, 1), (url2, 2)] =
      Run.done (some ⟨[⟨url1, 1⟩, ⟨url2, 2⟩], -1, 0, 2, 1⟩, none) ∧
    Reachable ⟨[⟨url1, 1⟩, ⟨url2, 2⟩], -1, 0, 2, 1⟩ ⟨[⟨url1, 1⟩, ⟨url2, 2⟩], -1, 0, 2, 1⟩ ∧
    GetServer 2 ⟨[⟨url1, 1⟩, ⟨url2, 2⟩], -1, 0, 2, 1⟩ =
      Run.done (url2, ⟨[⟨url1, 1⟩, ⟨url2, 2⟩], 1, 2, 2, 1⟩) ∧
    (⟨[⟨url1, 1⟩, ⟨url2, 2⟩], -1, 0, 2, 1⟩ : RoundRobin).servers.length ≤ 2 ∧
    ∃ t x, GetServerN 2 (period ⟨[⟨url1, 1⟩, ⟨url2, 2⟩], -1, 0, 2, 1⟩)
        ⟨[⟨url1, 1⟩, ⟨url2, 2⟩], 1, 2, 2, 1⟩ = Run.done t ∧ t.getLast? = some x ∧
      x.2 = ⟨[⟨url1, 1⟩, ⟨url2, 2⟩], 1, 2, 2, 1⟩ ∧
      x.2.index = (⟨[⟨url1, 1⟩, ⟨url2, 2⟩], 1, 2, 2, 1⟩ : RoundRobin).index ∧
      x.2.currentWeight = (⟨[⟨url1, 1⟩, ⟨url2, 2⟩], 1, 2, 2, 1⟩ : RoundRobin).currentWeight :=
  ⟨by decide, Reachable.init, by decide, by decide,
    cycle_returns_state [(url1, 1), (url2, 2)] ⟨[⟨url1, 1⟩, ⟨url2, 2⟩], -1, 0, 2, 1⟩
      (by decide) ⟨[⟨url1, 1⟩, ⟨url2, 2⟩], -1, 0, 2, 1⟩ 2 url2
      ⟨[⟨url1, 1⟩, ⟨url2, 2⟩], 1, 2, 2, 1⟩ Reachable.init (by decide) 2 (by decide)⟩
/-! ## The reference schedule -/

/-- C13: on an instance built by `NewRoundRobin`, the entries returned by the
successive calls of `GetServer` from the fresh instance are the endless
repetition of the reference block: call number `k + 1` returns the entry number
`k mod P` of the block, `P` being the length of the block, which is the sum of
`weight / weightGcd` over the entries. -/
theorem reference_schedule (m : List (URL × Int)) (r : RoundRobin)
    (hnew : NewRoundRobin m = Run.done (some r, none)) (n fuel : Nat)
    (hfuel : r.servers.length ≤ fuel) :
    (referenceBlock r).length = period r ∧
    ∃ t, GetServerN fuel n r = Run.done t ∧ t.length = n ∧
      ∀ k x, t[k]? = some x →
        ∃ e, referenceSchedule r k = some e ∧ e.url = x.1 ∧
          0 ≤ x.2.index ∧ x.2.servers[x.2.index.toNat]? = some e := by
  obtain ⟨_, hb, hr, _⟩ := NewRoundRobin_built hnew
  have hlen := length_referenceBlock hb
  obtain ⟨t, ht, hl, hsched⟩ := calls_schedule hb hr fuel hfuel n
  refine ⟨hlen, t, ht, hl, ?_⟩
  intro k x hx
  obtain ⟨c, hc, hchit, rfl⟩ := hsched k x hx
  obtain ⟨srv, _, hget, hurl, _, _, hidx, _, hservers⟩ := outcome_hit hb c hchit
  have hmap := congrArg (fun l => l[k % period r]?) (first_cycle_entries r)
  simp only [List.getElem?_map, hc, Option.map_some'] at hmap
  have hsrv : r.servers[c % r.servers.length]? = some srv := by
    have := hget
    simp only [outcome, stateAt, List.get?_eq_getElem?, Int.toNat_ofNat] at this
    exact this
  rw [hsrv] at hmap
  cases he : (referenceBlock r)[k % period r]? with
  | none => rw [he] at hmap; cases hmap
  | some e =>
    rw [he] at hmap
    have hes : e = srv := by
      have := Option.some.inj hmap
      exact (Option.some.inj this).symm
    subst hes
    refine ⟨e, ?_, hurl, hidx, ?_⟩
    · rw [referenceSchedule, hlen]
      exact he
    · rw [← List.get?_eq_getElem?]
      exact hget

theorem reference_schedule_witness :
    NewRoundRobin [(url1, 4), (url2, 6), (url3, 0)] =
      Run.done (some ⟨[⟨url1, 4⟩, ⟨url2, 6⟩, ⟨url3, 0⟩], -1, 0, 6, 2⟩, none) ∧
    (⟨[⟨url1, 4⟩, ⟨url2, 6⟩, ⟨url3, 0⟩], -1, 0, 6, 2⟩ : RoundRobin).servers.length ≤ 3 ∧
    referenceBlock ⟨[⟨url1, 4⟩, ⟨url2, 6⟩, ⟨url3, 0⟩], -1, 0, 6, 2⟩ =
      [⟨url2, 6⟩, ⟨url1, 4⟩, ⟨url2, 6⟩, ⟨url1, 4⟩, ⟨url2, 6⟩] ∧
    ((referenceBlock ⟨[⟨url1, 4⟩, ⟨url2, 6⟩, ⟨url3, 0⟩], -1, 0, 6, 2⟩).length =
      period ⟨[⟨url1, 4⟩, ⟨url2, 6⟩, ⟨url3, 0⟩], -1, 0, 6, 2⟩ ∧
    ∃ t, GetServerN 3 7 ⟨[⟨url1, 4⟩, ⟨url2, 6⟩, ⟨url3, 0⟩], -1, 0, 6, 2⟩ = Run.done t ∧
      t.length = 7 ∧
      ∀ k x, t[k]? = some x →
        ∃ e, referenceSchedule ⟨[⟨url1, 4⟩, ⟨url2, 6⟩, ⟨url3, 0⟩], -1, 0, 6, 2⟩ k = some e ∧
          e.url = x.1 ∧ 0 ≤ x.2.index ∧ x.2.servers[x.2.index.toNat]? = some e) :=
  ⟨by decide, by decide, by decide,
    reference_schedule [(url1, 4), (url2, 6), (url3, 0)]
      ⟨[⟨url1, 4⟩, ⟨url2, 6⟩, ⟨url3, 0⟩], -1, 0, 6, 2⟩ (by decide) 7 3 (by decide)⟩
/-! ## The iterations of one call -/

/-- C18: on an instance built by `NewRoundRobin` with `N` servers, a call of
`GetServer` made after any number of earlier calls runs at least one and at most
`N` iterations of its loop, and in at most one of them `index` becomes 0, so
that the branch changing `currentWeight` is taken at most once. -/
theorem iteration_bound (m : List (URL × Int)) (r : RoundRobin)
    (hnew : NewRoundRobin m = Run.done (some r, none)) (s : RoundRobin) (hs : Reachable r s) :
    ∃ tr u s1,
      (∀ fuel, r.servers.length ≤ fuel →
        GetServerLoopTrace fuel s = Run.done tr ∧ GetServer fuel s = Run.done (u, s1)) ∧
      tr.getLast? = some s1 ∧ 1 ≤ tr.length ∧ tr.length ≤ r.servers.length ∧
      (tr.filter (fun x => decide (x.index = 0))).length ≤ 1 := by
  obtain ⟨_, hb, hr, _⟩ := NewRoundRobin_built hnew
  obtain ⟨p, rfl, hgap⟩ := reachable_before hb hr hs
  obtain ⟨q, d, hqd, hd, hq, hmin, hloop⟩ := call_before hb p _ hgap
  subst hqd
  refine ⟨(List.range' p (d + 1)).map (stateAt r), (outcome r (p + d)).1, (outcome r (p + d)).2,
    fun fuel hfuel => ⟨first_hit_trace hb d p hmin hq fuel (by omega), ?_⟩, ?_, ?_, ?_, ?_⟩
  · rw [GetServer, hloop fuel, if_neg (by omega)]
  · rw [List.range'_1_concat, List.map_append, List.map_singleton, List.getLast?_concat]
    rfl
  · simp
  · simp only [List.length_map, List.length_range']
    omega
  · rw [← List.countP_eq_length_filter, List.countP_map]
    have hcongr : List.countP ((fun x : RoundRobin => decide (x.index = 0)) ∘ stateAt r)
        (List.range' p (d + 1)) =
        List.countP (fun q => decide (q % r.servers.length = 0)) (List.range' p (d + 1)) := by
      apply List.countP_congr
      intro q _
      simp only [Function.comp, stateAt, decide_eq_true_eq]
      exact Int.natCast_eq_zero
    rw [hcongr]
    exact countP_wrap _ _ p (by omega)

theorem iteration_bound_witness :
    NewRoundRobin [(url1, 2), (url2, 0), (url3, 4)] =
      Run.done (some ⟨[⟨url1, 2⟩, ⟨url2, 0⟩, ⟨url3, 4⟩], -1, 0, 4, 2⟩, none) ∧
    Reachable ⟨[⟨url1, 2⟩, ⟨url2, 0⟩, ⟨url3, 4⟩], -1, 0, 4, 2⟩
      ⟨[⟨url1, 2⟩, ⟨url2, 0⟩, ⟨url3, 4⟩], 2, 2, 4, 2⟩ ∧
    GetServerLoopTrace 3 ⟨[⟨url1, 2⟩, ⟨url2, 0⟩, ⟨url3, 4⟩], 2, 2, 4, 2⟩ =
      Run.done [⟨[⟨url1, 2⟩, ⟨url2, 0⟩, ⟨url3, 4⟩], 0, 4, 4, 2⟩,
        ⟨[⟨url1, 2⟩, ⟨url2, 0⟩, ⟨url3, 4⟩], 1, 4, 4, 2⟩,
        ⟨[⟨url1, 2⟩, ⟨url2, 0⟩, ⟨url3, 4⟩], 2, 4, 4, 2⟩] ∧
    ∃ tr u s1,
      (∀ fuel, (⟨[⟨url1, 2⟩, ⟨url2, 0⟩, ⟨url3, 4⟩], -1, 0, 4, 2⟩ : RoundRobin).servers.length ≤
          fuel →
        GetServerLoopTrace fuel ⟨[⟨url1, 2⟩, ⟨url2, 0⟩, ⟨url3, 4⟩], 2, 2, 4, 2⟩ = Run.done tr ∧
        GetServer fuel ⟨[⟨url1, 2⟩, ⟨url2, 0⟩, ⟨url3, 4⟩], 2, 2, 4, 2⟩ = Run.done (u, s1)) ∧
      tr.getLast? = some s1 ∧ 1 ≤ tr.length ∧
      tr.length ≤ (⟨[⟨url1, 2⟩, ⟨url2, 0⟩, ⟨url3, 4⟩], -1, 0, 4, 2⟩ : RoundRobin).servers.length ∧
      (tr.filter (fun x => decide (x.index = 0))).length ≤ 1 :=
  ⟨by decide,
    Reachable.call _ 3 url3 _
      (Reachable.call _ 3 url1 _
        (Reachable.call _ 3 url3 _ Reachable.init
          (by decide : GetServer 3 ⟨[⟨url1, 2⟩, ⟨url2, 0⟩, ⟨url3, 4⟩], -1, 0, 4, 2⟩ =
            Run.done (url3, ⟨[⟨url1, 2⟩, ⟨url2, 0⟩, ⟨url3, 4⟩], 2, 4, 4, 2⟩)))
        (by decide : GetServer 3 ⟨[⟨url1, 2⟩, ⟨url2, 0⟩, ⟨url3, 4⟩], 2, 4, 4, 2⟩ =
          Run.done (url1, ⟨[⟨url1, 2⟩, ⟨url2, 0⟩, ⟨url3, 4⟩], 0, 2, 4, 2⟩)))
      (by decide : GetServer 3 ⟨[⟨url1, 2⟩, ⟨url2, 0⟩, ⟨url3, 4⟩], 0, 2, 4, 2⟩ =
        Run.done (url3, ⟨[⟨url1, 2⟩, ⟨url2, 0⟩, ⟨url3, 4⟩], 2, 2, 4, 2⟩)),
    by decide,
    iteration_bound [(url1, 2), (url2, 0), (url3, 4)]
      ⟨[⟨url1, 2⟩, ⟨url2, 0⟩, ⟨url3, 4⟩], -1, 0, 4, 2⟩ (by decide)
      ⟨[⟨url1, 2⟩, ⟨url2, 0⟩, ⟨url3, 4⟩], 2, 2, 4, 2⟩
      (Reachable.call _ 3 url3 _
        (Reachable.call _ 3 url1 _
          (Reachable.call _ 3 url3 _ Reachable.init
            (by decide : GetServer 3 ⟨[⟨url1, 2⟩, ⟨url2, 0⟩, ⟨url3, 4⟩], -1, 0, 4, 2⟩ =
              Run.done (url3, ⟨[⟨url1, 2⟩, ⟨url2, 0⟩, ⟨url3, 4⟩], 2, 4, 4, 2⟩)))
          (by decide : GetServer 3 ⟨[⟨url1, 2⟩, ⟨url2, 0⟩, ⟨url3, 4⟩], 2, 4, 4, 2⟩ =
            Run.done (url1, ⟨[⟨url1, 2⟩, ⟨url2, 0⟩, ⟨url3, 4⟩], 0, 2, 4, 2⟩)))
        (by decide : GetServer 3 ⟨[⟨url1, 2⟩, ⟨url2, 0⟩, ⟨url3, 4⟩], 0, 2, 4, 2⟩ =
          Run.done (url3, ⟨[⟨url1, 2⟩, ⟨url2, 0⟩, ⟨url3, 4⟩], 2, 2, 4, 2⟩)))⟩

end Proxy
